import Mathlib

/-! # ProgressBar.h: a shallow embedding

Source: `src/src/ProgressBar.h`.

* `ProgressData` is the record of one bar, `ProgressMap` is `std::map<int, ProgressData>`
  (a list of key/record pairs kept in ascending key order, the order the map iterates in).
* `ProgressBar` is the object state: the map, the two lifecycle flags and the display
  thread, together with three ghost fields recording what the display thread wrote, how
  often `join()` was executed, and whether an exception has ended the process.
* Calls of the public methods and iterations of the loop of `run()` are interleaved at
  the granularity of whole calls and whole loop iterations.
* `size_t` values are naturals below `2 ^ 64`; `double` values are rationals, every
  arithmetic operation being followed by rounding to the nearest binary64 value
  (ties to even).
-/

/-! ## Data model -/

/-- One progress record (`struct ProgressData`), with the member initialisers of the
source as defaults; a default-constructed `time_point` is the epoch, tick `0`. -/
structure ProgressData where
  processed : Nat := 0
  total : Nat := 0
  name : String := ""
  startTime : Int := 0
  finished : Bool := false
deriving DecidableEq, Repr

/-- The container `std::map<int, ProgressData>`: its entries in iteration order. -/
abbrev ProgressMap := List (Int × ProgressData)

namespace ProgressMap

/-- Keys of the map in iteration order. -/
def keys (m : ProgressMap) : List Int := m.map Prod.fst

/-- The class invariant of `std::map`: keys strictly ascending (hence unique). -/
def Ordered (m : ProgressMap) : Prop := m.keys.Pairwise (fun a b => a < b)

instance (m : ProgressMap) : Decidable m.Ordered := by
  unfold Ordered; infer_instance

/-- Read access by key (`find`): the record stored under `id`, if any. -/
def find? : ProgressMap → Int → Option ProgressData
  | [], _ => none
  | (k, v) :: rest, id => if id = k then some v else find? rest id

/-- Member `count(id)`: the number of entries with key `id`. -/
def count (m : ProgressMap) (id : Int) : Nat :=
  match m.find? id with
  | some _ => 1
  | none => 0

/-- The statement `m[id].field = value`: `operator[]` walks to the position of `id`,
value-initialises a record there when the key is missing, and the assignment `f` is
applied to the record it returns a reference to. -/
def assignAt : ProgressMap → Int → (ProgressData → ProgressData) → ProgressMap
  | [], id, f => [(id, f {})]
  | (k, v) :: rest, id, f =>
    if id < k then (id, f {}) :: (k, v) :: rest
    else if id = k then (k, f v) :: rest
    else (k, v) :: assignAt rest id f

end ProgressMap

/-! ## Arithmetic of the redraw loop -/

/-- Round a rational to the nearest integer, ties to the even one. -/
def rne (z : ℚ) : ℤ :=
  if z - ⌊z⌋ < 1 / 2 then ⌊z⌋
  else if 1 / 2 < z - ⌊z⌋ then ⌊z⌋ + 1
  else if ⌊z⌋ % 2 = 0 then ⌊z⌋ else ⌊z⌋ + 1

/-- The binary exponent of a non-zero rational: `2 ^ ilog2 q ≤ |q| < 2 ^ (ilog2 q + 1)`. -/
def ilog2 (q : ℚ) : ℤ :=
  let l : ℤ := (Nat.log2 q.num.natAbs : ℤ) - (Nat.log2 q.den : ℤ)
  if (2 : ℚ) ^ l ≤ |q| then l else l - 1

/-- Exponent of the unit in the last place of the binary64 format at `q`: 53 significant
bits, and never below `2 ^ (-1074)`, the spacing of the subnormal numbers. -/
def ulpExp (q : ℚ) : ℤ := max (ilog2 q - 52) (-1074)

/-- The binary64 value nearest to `q`, ties to even (the default rounding of `double`
arithmetic). Overflow to infinity is not represented: it needs a magnitude of `2 ^ 1024`,
and the values the redraw loop computes from `size_t` operands stay within `2 ^ 71`
(`percent_le_of_lt`). -/
def roundDouble (q : ℚ) : ℚ := rne (q / 2 ^ ulpExp q) * 2 ^ ulpExp q

/-- The conversion `(double)n` of a `size_t`. -/
def toDouble (n : Nat) : ℚ := roundDouble n

/-- The `double` quotient `a / b`. -/
def fdiv (a b : ℚ) : ℚ := roundDouble (a / b)

/-- The `double` product `a * b`. -/
def fmul (a b : ℚ) : ℚ := roundDouble (a * b)

/-- The local `percent` of `run()`:
`progress.total > 0 ? (double)progress.processed / progress.total * 100 : 0.0`. -/
def percent (progress : ProgressData) : ℚ :=
  if progress.total > 0 then
    fmul (fdiv (toDouble progress.processed) (toDouble progress.total)) 100
  else 0

/-- The conversion `(size_t)x` of a `double`: truncation toward zero, without a defined
result (`none`) when the truncated value is not a `size_t`. -/
def toSizeT (x : ℚ) : Option Nat :=
  if -1 < x ∧ x < 2 ^ 64 then some ⌊x⌋.toNat else none

/-- The local `barWidth` of `run()`. -/
def barWidth : Nat := 50

/-- The local `completed` of `run()`: `(size_t)(percent / 2)`. -/
def completed (progress : ProgressData) : Option Nat :=
  toSizeT (fdiv (percent progress) 2)

/-- The `size_t` difference `a - b`, which wraps modulo `2 ^ 64`. -/
def subSizeT (a b : Nat) : Nat := (a + 2 ^ 64 - b % 2 ^ 64) % 2 ^ 64

/-- The bound `max_size()` of `std::string` on a 64-bit target: `PTRDIFF_MAX` (its value
under MSVC, and an upper bound for it under the other standard libraries). -/
def stringMaxSize : Nat := 2 ^ 63 - 1

/-- The constructor `std::string(count, ch)`; it throws `std::length_error` (`none`)
when `count` exceeds `max_size()`. -/
def stdString (count : Nat) (ch : Char) : Option (List Char) :=
  if count ≤ stringMaxSize then some (List.replicate count ch) else none

/-- The `char` the completed part of the gauge is filled with, written as the character
U+2501 in the source; `std::string(count, ch)` holds `count` copies of it. -/
def filledGlyph : Char := Char.ofNat 0x2501

/-- The `char` the remaining part of the gauge is filled with, written as the character
U+2508 in the source. -/
def emptyGlyph : Char := Char.ofNat 0x2508

/-- Ticks per second of `std::chrono::steady_clock::duration`, whose period is
`std::nano` in the MSVC, GNU and LLVM standard libraries. -/
def ticksPerSecond : Int := 1000000000

/-- Private `formatTimeDuration(duration)`; `duration` is the tick count. The division
and the remainder of C++ truncate toward zero. -/
def formatTimeDuration (duration : Int) : String :=
  let secs := Int.tdiv duration ticksPerSecond
  let mins := Int.tdiv secs 60
  let secs := Int.tmod secs 60
  toString mins ++ "m " ++ toString secs ++ "s"

/-- The member `std::thread displayThread`: `joinable` is what `joinable()` returns,
`running` tells whether `run()` is still executing on it. -/
structure DisplayThread where
  joinable : Bool := false
  running : Bool := false
deriving DecidableEq, Repr

/-- One row written by the redraw loop: the values inserted into `std::cout` for one
record. `filled` and `empty` are the two `std::string(count, glyph)` temporaries,
`percent` the `double` that is printed with two decimals. -/
structure Row where
  line : Int
  id : Int
  name : String
  filled : List Char
  empty : List Char
  percent : ℚ
  elapsed : String
deriving DecidableEq

/-- The body of the `for` loop of `run()` for one record: `line` is the value of
`++line`, `now` the clock reading of this iteration. The result is `none` when the body
does not complete (an exception of `std::string`, or an undefined conversion). -/
def renderRow (line id : Int) (progress : ProgressData) (now : Int) : Option Row :=
  let elapsed := now - progress.startTime
  match completed progress with
  | none => none
  | some done =>
    match stdString done filledGlyph, stdString (subSizeT barWidth done) emptyGlyph with
    | some filled, some empty =>
      some ⟨line, id, progress.name, filled, empty, percent progress,
        formatTimeDuration elapsed⟩
    | _, _ => none

/-- The `for` loop of `run()` over the map, started with the counter at `line`; `now k`
is the clock reading of the iteration that writes row `k`. Returns the rows written and
whether the loop ran to its end. The counter is an integer: the `int` of the source
cannot overflow before the map holds `2 ^ 31` records. -/
def redrawPass (now : Int → Int) : Int → ProgressMap → List Row × Bool
  | _, [] => ([], true)
  | line, (id, progress) :: rest =>
    match renderRow (line + 1) id progress (now (line + 1)) with
    | none => ([], false)
    | some row =>
      let r := redrawPass now (line + 1) rest
      (row :: r.1, r.2)

/-- State of a `ProgressBar` object. `output` (rows written to `std::cout` so far),
`joins` (number of executed `join()` calls) and `terminated` (an exception escaped
`run()`, which ends the process) are ghost fields. -/
structure ProgressBar where
  progressBars : ProgressMap := []
  stopFlag : Bool := false
  threadStarted : Bool := false
  displayThread : DisplayThread := {}
  output : List Row := []
  joins : Nat := 0
  terminated : Bool := false
deriving DecidableEq

namespace ProgressBar

/-- The constructor `ProgressBar() : stopFlag(false), threadStarted(false) {}`. -/
def init : ProgressBar := {}

/-- Private `start()`: launches the display thread unless `threadStarted` is set. -/
def start (s : ProgressBar) : ProgressBar :=
  if !s.threadStarted then
    { s with threadStarted := true, displayThread := ⟨true, true⟩ }
  else s

/-- Public `addProgressBar(id, name, total)`; `now` is the value returned by
`std::chrono::steady_clock::now()` in the third assignment. -/
def addProgressBar (s : ProgressBar) (id : Int) (name : String) (total : Nat)
    (now : Int) : ProgressBar :=
  let m1 := s.progressBars.assignAt id (fun d => { d with total := total })
  let m2 := m1.assignAt id (fun d => { d with name := name })
  let m3 := m2.assignAt id (fun d => { d with startTime := now })
  start { s with progressBars := m3 }

/-- Public `updateProgress(id, processed)`. -/
def updateProgress (s : ProgressBar) (id : Int) (processed : Nat) : ProgressBar :=
  if s.progressBars.count id ≠ 0 then
    { s with progressBars := s.progressBars.assignAt id (fun d => { d with processed := processed }) }
  else s

/-- Public `markFinished(id)`. -/
def markFinished (s : ProgressBar) (id : Int) : ProgressBar :=
  if s.progressBars.count id ≠ 0 then
    { s with progressBars := s.progressBars.assignAt id (fun d => { d with finished := true }) }
  else s

/-- Public `stop()`. The `join()` returns once `run()` has returned; the thread is then
no longer joinable. -/
def stop (s : ProgressBar) : ProgressBar :=
  if s.threadStarted then
    let s1 := { s with stopFlag := true }
    if s1.displayThread.joinable then
      { s1 with displayThread := ⟨false, false⟩, joins := s1.joins + 1 }
    else s1
  else s

/-- One iteration of `while (!stopFlag) { ... }` in `run()`, executed by the display
thread while it is running: the loop test, then the redraw pass. An exception leaving
the pass leaves `run()` and ends the process. -/
def runIteration (s : ProgressBar) (now : Int → Int) : ProgressBar :=
  if s.displayThread.running then
    if !s.stopFlag then
      let r := redrawPass now 0 s.progressBars
      if r.2 then { s with output := s.output ++ r.1 }
      else { s with output := s.output ++ r.1, terminated := true,
                    displayThread := ⟨s.displayThread.joinable, false⟩ }
    else { s with displayThread := ⟨s.displayThread.joinable, false⟩ }
  else s

end ProgressBar

/-- What can happen to a `ProgressBar` object: a call of one of its public methods, or
one iteration of the loop of its display thread. -/
inductive Event where
  | addProgressBar (id : Int) (name : String) (total : Nat) (now : Int)
  | updateProgress (id : Int) (processed : Nat)
  | markFinished (id : Int)
  | stop
  | redraw (now : Int → Int)

namespace ProgressBar

/-- Effect of one event; nothing happens any more once the process has ended. -/
def step (s : ProgressBar) (e : Event) : ProgressBar :=
  if s.terminated then s
  else
    match e with
    | .addProgressBar id name total now => s.addProgressBar id name total now
    | .updateProgress id processed => s.updateProgress id processed
    | .markFinished id => s.markFinished id
    | .stop => s.stop
    | .redraw now => s.runIteration now

/-- Effect of a sequence of events. -/
def runEvents (s : ProgressBar) (es : List Event) : ProgressBar := es.foldl step s

/-- Registrations only: the calls `addProgressBar(id, name, total)` of `regs`, in order,
each with its clock reading. -/
def registerAll (s : ProgressBar) (regs : List (Int × String × Nat × Int)) : ProgressBar :=
  regs.foldl (fun t r => t.addProgressBar r.1 r.2.1 r.2.2.1 r.2.2.2) s

/-- Consistency of the lifecycle fields, true of every state an object goes through. -/
def Consistent (s : ProgressBar) : Prop :=
  (s.displayThread.running = true → s.displayThread.joinable = true) ∧
  (s.displayThread.running = true → s.threadStarted = true) ∧
  (s.terminated = true → s.threadStarted = true) ∧
  (s.terminated = true → s.displayThread.running = false)

/-- The display thread was started at some time and is not running. -/
def Quiet (s : ProgressBar) : Prop :=
  s.threadStarted = true ∧ s.displayThread.running = false

end ProgressBar

/-! ## Lemmas on the map -/

namespace ProgressMap

theorem find?_eq_none_of_lt_keys {m : ProgressMap} {id : Int}
    (h : ∀ k ∈ m.keys, id < k) : m.find? id = none := by
  induction m with
  | nil => rfl
  | cons e rest ih =>
    obtain ⟨k, v⟩ := e
    have hk : id < k := h k (by simp [keys])
    have hne : id ≠ k := ne_of_lt hk
    simp only [find?, hne, if_false]
    exact ih (fun j hj => h j (by simp [keys] at hj ⊢; exact Or.inr hj))

theorem find?_assignAt_ne (m : ProgressMap) (id j : Int) (f : ProgressData → ProgressData)
    (hj : j ≠ id) : (m.assignAt id f).find? j = m.find? j := by
  induction m with
  | nil => simp [assignAt, find?, hj]
  | cons e rest ih =>
    obtain ⟨k, v⟩ := e
    unfold assignAt
    split_ifs with h1 h2
    · simp [find?, hj]
    · subst h2; simp [find?, hj]
    · by_cases hjk : j = k
      · simp [find?, hjk]
      · simp [find?, hjk, ih]

theorem find?_assignAt_self (m : ProgressMap) (id : Int) (f : ProgressData → ProgressData)
    (hm : m.Ordered) : (m.assignAt id f).find? id = some (f ((m.find? id).getD {})) := by
  induction m with
  | nil => simp [assignAt, find?]
  | cons e rest ih =>
    obtain ⟨k, v⟩ := e
    have hrest : Ordered rest := by
      unfold Ordered keys at hm ⊢
      simp only [List.map_cons, List.pairwise_cons] at hm
      exact hm.2
    have hlt : ∀ j ∈ keys rest, k < j := by
      unfold Ordered keys at hm
      simp only [List.map_cons, List.pairwise_cons] at hm
      exact hm.1
    unfold assignAt
    split_ifs with h1 h2
    · have hnone : find? ((k, v) :: rest) id = none :=
        find?_eq_none_of_lt_keys (by
          intro j hj
          simp only [keys, List.map_cons, List.mem_cons] at hj
          rcases hj with rfl | hj
          · exact h1
          · exact lt_trans h1 (hlt j hj))
      rw [hnone]; simp [find?]
    · subst h2; simp [find?]
    · simp [find?, h2, ih hrest]

theorem keys_assignAt_subset (m : ProgressMap) (id : Int) (f : ProgressData → ProgressData) :
    ∀ j, j ∈ (m.assignAt id f).keys ↔ j = id ∨ j ∈ m.keys := by
  induction m with
  | nil => intro j; simp [assignAt, keys]
  | cons e rest ih =>
    obtain ⟨k, v⟩ := e
    intro j
    unfold assignAt
    split_ifs with h1 h2
    · simp [keys]
    · subst h2; simp [keys]
    · have := ih j
      simp only [keys, List.map_cons, List.mem_cons] at this ⊢
      rw [this]; tauto

theorem ordered_assignAt (m : ProgressMap) (id : Int) (f : ProgressData → ProgressData)
    (hm : m.Ordered) : (m.assignAt id f).Ordered := by
  induction m with
  | nil => simp [assignAt, Ordered, keys]
  | cons e rest ih =>
    obtain ⟨k, v⟩ := e
    have hrest : Ordered rest := by
      unfold Ordered keys at hm ⊢
      simp only [List.map_cons, List.pairwise_cons] at hm
      exact hm.2
    have hlt : ∀ j ∈ keys rest, k < j := by
      unfold Ordered keys at hm
      simp only [List.map_cons, List.pairwise_cons] at hm
      exact hm.1
    unfold assignAt
    split_ifs with h1 h2
    · unfold Ordered keys at hm ⊢
      simp only [List.map_cons, List.pairwise_cons] at hm ⊢
      refine ⟨?_, hm⟩
      intro j hj
      simp only [List.mem_cons] at hj
      rcases hj with rfl | hj
      · exact h1
      · exact lt_trans h1 (hm.1 j hj)
    · exact hm
    · have hkid : k < id := lt_of_le_of_ne (not_lt.mp h1) (Ne.symm h2)
      have ih1 := ih hrest
      unfold Ordered at ih1 ⊢
      have hk : keys ((k, v) :: assignAt rest id f) = k :: keys (assignAt rest id f) := rfl
      rw [hk, List.pairwise_cons]
      refine ⟨?_, ih1⟩
      intro j hj
      rcases (keys_assignAt_subset rest id f j).1 hj with rfl | hj
      · exact hkid
      · exact hlt j hj

/-- When the key is present, `m[id].field = value` leaves the key sequence as it is. -/
theorem keys_assignAt_of_mem (m : ProgressMap) (id : Int) (f : ProgressData → ProgressData)
    (hm : m.Ordered) (hid : m.find? id ≠ none) : (m.assignAt id f).keys = m.keys := by
  induction m with
  | nil => simp [find?] at hid
  | cons e rest ih =>
    obtain ⟨k, v⟩ := e
    have hrest : Ordered rest := by
      unfold Ordered keys at hm ⊢
      simp only [List.map_cons, List.pairwise_cons] at hm
      exact hm.2
    have hlt : ∀ j ∈ keys rest, k < j := by
      unfold Ordered keys at hm
      simp only [List.map_cons, List.pairwise_cons] at hm
      exact hm.1
    unfold assignAt
    split_ifs with h1 h2
    · exfalso
      apply hid
      exact find?_eq_none_of_lt_keys (by
        intro j hj
        simp only [keys, List.map_cons, List.mem_cons] at hj
        rcases hj with rfl | hj
        · exact h1
        · exact lt_trans h1 (hlt j hj))
    · rfl
    · have hid2 : find? rest id ≠ none := by simpa [find?, h2] using hid
      have := ih hrest hid2
      simp only [keys, List.map_cons] at this ⊢
      rw [this]

theorem count_ne_zero_iff (m : ProgressMap) (id : Int) :
    m.count id ≠ 0 ↔ m.find? id ≠ none := by
  unfold count
  cases h : m.find? id <;> simp

theorem mem_keys_iff_find? (m : ProgressMap) (id : Int) :
    id ∈ m.keys ↔ m.find? id ≠ none := by
  induction m with
  | nil => simp [keys, find?]
  | cons e rest ih =>
    obtain ⟨k, v⟩ := e
    by_cases h : id = k
    · simp [keys, find?, h]
    · simp only [keys, List.map_cons, List.mem_cons, find?, h, if_false, false_or]
      exact ih

end ProgressMap

/-! ## Lemmas on rounding -/

theorem rne_intCast (n : ℤ) : rne (n : ℚ) = n := by
  simp [rne]

theorem floor_le_rne (z : ℚ) : ⌊z⌋ ≤ rne z := by
  unfold rne; split_ifs <;> omega

theorem rne_le_floor_add_one (z : ℚ) : rne z ≤ ⌊z⌋ + 1 := by
  unfold rne; split_ifs <;> omega

theorem rne_mono {z w : ℚ} (h : z ≤ w) : rne z ≤ rne w := by
  have hf : ⌊z⌋ ≤ ⌊w⌋ := Int.floor_mono h
  rcases lt_or_eq_of_le hf with hlt | heq
  · calc rne z ≤ ⌊z⌋ + 1 := rne_le_floor_add_one z
      _ ≤ ⌊w⌋ := hlt
      _ ≤ rne w := floor_le_rne w
  · unfold rne
    rw [heq]
    split_ifs <;> first | omega | (exfalso; linarith)

theorem abs_rne_sub_le (z : ℚ) : |(rne z : ℚ) - z| ≤ 1 / 2 := by
  have h1 : (⌊z⌋ : ℚ) ≤ z := Int.floor_le z
  have h2 : z < ⌊z⌋ + 1 := Int.lt_floor_add_one z
  rw [abs_le]
  unfold rne
  split_ifs <;> push_cast <;> constructor <;> linarith

theorem ilog2_spec {q : ℚ} (hq : q ≠ 0) :
    (2 : ℚ) ^ ilog2 q ≤ |q| ∧ |q| < (2 : ℚ) ^ (ilog2 q + 1) := by
  have hn : q.num.natAbs ≠ 0 := by simpa using hq
  have hd : q.den ≠ 0 := q.den_nz
  have habs : |q| = (q.num.natAbs : ℚ) / (q.den : ℚ) := by
    calc |q| = |(q.num : ℚ) / q.den| := by rw [Rat.num_div_den]
      _ = |(q.num : ℚ)| / q.den := by rw [abs_div, Nat.abs_cast]
      _ = (q.num.natAbs : ℚ) / q.den := by rw [Nat.cast_natAbs, Int.cast_abs]
  have hdpos : (0 : ℚ) < q.den := by exact_mod_cast Nat.pos_of_ne_zero hd
  have hn1 : ((2 : ℚ) ^ (q.num.natAbs.log2)) ≤ (q.num.natAbs : ℚ) := by
    exact_mod_cast Nat.log2_self_le hn
  have hn2 : (q.num.natAbs : ℚ) < (2 : ℚ) ^ (q.num.natAbs.log2 + 1) := by
    exact_mod_cast (Nat.lt_log2_self (n := q.num.natAbs))
  have hd1 : ((2 : ℚ) ^ (q.den.log2)) ≤ (q.den : ℚ) := by
    exact_mod_cast Nat.log2_self_le hd
  have hd2 : (q.den : ℚ) < (2 : ℚ) ^ (q.den.log2 + 1) := by
    exact_mod_cast (Nat.lt_log2_self (n := q.den))
  have h2 : (0 : ℚ) < 2 := by norm_num
  have h2ne : (2 : ℚ) ≠ 0 := by norm_num
  unfold ilog2
  simp only
  split_ifs with h
  · refine ⟨h, ?_⟩
    rw [habs, div_lt_iff₀ hdpos]
    have e1 : (2 : ℚ) ^ ((q.num.natAbs.log2 : ℤ) - (q.den.log2 : ℤ) + 1)
        = 2 ^ (q.num.natAbs.log2 + 1) / 2 ^ q.den.log2 := by
      rw [show ((q.num.natAbs.log2 : ℤ) - (q.den.log2 : ℤ) + 1)
        = ((q.num.natAbs.log2 + 1 : ℕ) : ℤ) - ((q.den.log2 : ℕ) : ℤ) by push_cast; ring]
      rw [zpow_sub₀ h2ne, zpow_natCast, zpow_natCast]
    rw [e1, div_mul_eq_mul_div, lt_div_iff₀ (by positivity)]
    calc (q.num.natAbs : ℚ) * 2 ^ q.den.log2 < 2 ^ (q.num.natAbs.log2 + 1) * 2 ^ q.den.log2 := by
          apply mul_lt_mul_of_pos_right hn2 (by positivity)
      _ ≤ 2 ^ (q.num.natAbs.log2 + 1) * q.den := by
          apply mul_le_mul_of_nonneg_left hd1 (by positivity)
  · push_neg at h
    constructor
    · rw [habs, le_div_iff₀ hdpos]
      have e1 : (2 : ℚ) ^ ((q.num.natAbs.log2 : ℤ) - (q.den.log2 : ℤ) - 1)
          = 2 ^ (q.num.natAbs.log2) / 2 ^ (q.den.log2 + 1) := by
        rw [show ((q.num.natAbs.log2 : ℤ) - (q.den.log2 : ℤ) - 1)
          = ((q.num.natAbs.log2 : ℕ) : ℤ) - ((q.den.log2 + 1 : ℕ) : ℤ) by push_cast; ring]
        rw [zpow_sub₀ h2ne, zpow_natCast, zpow_natCast]
      rw [e1, div_mul_eq_mul_div, div_le_iff₀ (by positivity)]
      calc (2 : ℚ) ^ q.num.natAbs.log2 * q.den ≤ q.num.natAbs * q.den := by
            apply mul_le_mul_of_nonneg_right hn1 (le_of_lt hdpos)
        _ ≤ q.num.natAbs * 2 ^ (q.den.log2 + 1) := by
            apply mul_le_mul_of_nonneg_left (le_of_lt hd2) (by positivity)
    · simpa using h

theorem ilog2_lt_iff {q : ℚ} (hq : q ≠ 0) (k : ℤ) : ilog2 q < k ↔ |q| < (2 : ℚ) ^ k := by
  obtain ⟨h1, h2⟩ := ilog2_spec hq
  constructor
  · intro h
    calc |q| < (2 : ℚ) ^ (ilog2 q + 1) := h2
      _ ≤ 2 ^ k := zpow_le_zpow_right₀ (by norm_num) (by omega)
  · intro h
    have : (2 : ℚ) ^ ilog2 q < 2 ^ k := lt_of_le_of_lt h1 h
    exact (zpow_lt_zpow_iff_right₀ (by norm_num)).1 this

theorem le_ilog2_iff {q : ℚ} (hq : q ≠ 0) (k : ℤ) : k ≤ ilog2 q ↔ (2 : ℚ) ^ k ≤ |q| := by
  have := ilog2_lt_iff hq k
  constructor
  · intro h; by_contra hc; push_neg at hc; have := this.2 hc; omega
  · intro h; by_contra hc; push_neg at hc; have := this.1 hc; linarith

theorem two_zpow_pos (e : ℤ) : (0 : ℚ) < 2 ^ e := zpow_pos (by norm_num) e

/-- A non-negative power of two is an integer. -/
theorem two_zpow_eq_intCast {j : ℤ} (hj : 0 ≤ j) : (2 : ℚ) ^ j = ((2 ^ j.toNat : ℤ) : ℚ) := by
  conv_lhs => rw [← Int.toNat_of_nonneg hj]
  rw [zpow_natCast]; push_cast; rfl

theorem grid_round_le {x : ℚ} {e : ℤ} {n : ℤ} (h : x ≤ n * 2 ^ e) :
    (rne (x / 2 ^ e) : ℚ) * 2 ^ e ≤ n * 2 ^ e := by
  have hp := two_zpow_pos e
  have h1 : x / 2 ^ e ≤ (n : ℚ) := by rw [div_le_iff₀ hp]; exact h
  have h2 : rne (x / 2 ^ e) ≤ n := by simpa [rne_intCast] using rne_mono h1
  exact mul_le_mul_of_nonneg_right (by exact_mod_cast h2) (le_of_lt hp)

theorem le_grid_round {x : ℚ} {e : ℤ} {n : ℤ} (h : (n : ℚ) * 2 ^ e ≤ x) :
    (n : ℚ) * 2 ^ e ≤ rne (x / 2 ^ e) * 2 ^ e := by
  have hp := two_zpow_pos e
  have h1 : (n : ℚ) ≤ x / 2 ^ e := by rw [le_div_iff₀ hp]; exact h
  have h2 : n ≤ rne (x / 2 ^ e) := by simpa [rne_intCast] using rne_mono h1
  exact mul_le_mul_of_nonneg_right (by exact_mod_cast h2) (le_of_lt hp)

theorem grid_round_exact (m : ℤ) {e k : ℤ} (h : e ≤ k) :
    (rne ((m : ℚ) * 2 ^ k / 2 ^ e) : ℚ) * 2 ^ e = m * 2 ^ k := by
  have h2ne : (2 : ℚ) ≠ 0 := by norm_num
  have e1 : (m : ℚ) * 2 ^ k / 2 ^ e = ((m * 2 ^ (k - e).toNat : ℤ) : ℚ) := by
    rw [mul_div_assoc, ← zpow_sub₀ h2ne, two_zpow_eq_intCast (by omega : 0 ≤ k - e)]
    push_cast; rfl
  rw [e1, rne_intCast, ← e1]
  field_simp

theorem roundDouble_zero : roundDouble 0 = 0 := by
  simp [roundDouble, rne]

theorem roundDouble_nonneg {x : ℚ} (hx : 0 ≤ x) : 0 ≤ roundDouble x := by
  unfold roundDouble
  have := @le_grid_round x (ulpExp x) 0 (by simpa using hx)
  simpa using this

theorem ulpExp_mono {x y : ℚ} (hx : 0 < x) (hxy : x ≤ y) : ulpExp x ≤ ulpExp y := by
  have hy : 0 < y := lt_of_lt_of_le hx hxy
  have h1 : ilog2 x ≤ ilog2 y := by
    rw [le_ilog2_iff (ne_of_gt hy), abs_of_pos hy]
    have := (ilog2_spec (ne_of_gt hx)).1
    rw [abs_of_pos hx] at this
    exact le_trans this hxy
  unfold ulpExp
  omega

/-- A positive number lies below the top of its binade. -/
theorem lt_binade_top {x : ℚ} (hx : 0 < x) : x < 2 ^ 53 * 2 ^ ulpExp x := by
  have h := (ilog2_spec (ne_of_gt hx)).2
  rw [abs_of_pos hx] at h
  have h2ne : (2 : ℚ) ≠ 0 := by norm_num
  calc x < 2 ^ (ilog2 x + 1) := h
    _ ≤ 2 ^ ((53 : ℤ) + ulpExp x) := zpow_le_zpow_right₀ (by norm_num) (by unfold ulpExp; omega)
    _ = 2 ^ 53 * 2 ^ ulpExp x := by rw [zpow_add₀ h2ne]; norm_num

/-- A number above the subnormal range lies above the bottom of its binade. -/
theorem binade_bottom_le {x : ℚ} (hx : 0 < x) (hu : ulpExp x = ilog2 x - 52) :
    2 ^ 52 * 2 ^ ulpExp x ≤ x := by
  have h := (ilog2_spec (ne_of_gt hx)).1
  rw [abs_of_pos hx] at h
  have h2ne : (2 : ℚ) ≠ 0 := by norm_num
  calc (2 : ℚ) ^ 52 * 2 ^ ulpExp x = 2 ^ ((52 : ℤ) + ulpExp x) := by
        rw [zpow_add₀ h2ne]; norm_num
    _ = 2 ^ ilog2 x := by rw [hu]; congr 1; ring
    _ ≤ x := h

theorem roundDouble_mono {x y : ℚ} (hx : 0 ≤ x) (hxy : x ≤ y) :
    roundDouble x ≤ roundDouble y := by
  rcases eq_or_lt_of_le hx with h0 | hpos
  · rw [← h0, roundDouble_zero]; exact roundDouble_nonneg (le_trans hx hxy)
  have hy : 0 < y := lt_of_lt_of_le hpos hxy
  have he := ulpExp_mono hpos hxy
  rcases eq_or_lt_of_le he with heq | hlt
  · unfold roundDouble
    rw [← heq]
    have hp := two_zpow_pos (ulpExp x)
    have h1 : x / 2 ^ ulpExp x ≤ y / 2 ^ ulpExp x := div_le_div_of_nonneg_right hxy (le_of_lt hp)
    have h2 := rne_mono h1
    exact mul_le_mul_of_nonneg_right (by exact_mod_cast h2) (le_of_lt hp)
  · have h2ne : (2 : ℚ) ≠ 0 := by norm_num
    have a1 : roundDouble x ≤ ((2 ^ 53 : ℤ) : ℚ) * 2 ^ ulpExp x := by
      unfold roundDouble
      apply grid_round_le
      push_cast
      exact le_of_lt (lt_binade_top hpos)
    have a2 : ((2 ^ 52 : ℤ) : ℚ) * 2 ^ ulpExp y ≤ roundDouble y := by
      unfold roundDouble
      apply le_grid_round
      push_cast
      exact binade_bottom_le hy (by unfold ulpExp at hlt ⊢; omega)
    have a3 : ((2 ^ 53 : ℤ) : ℚ) * 2 ^ ulpExp x ≤ ((2 ^ 52 : ℤ) : ℚ) * 2 ^ ulpExp y := by
      have : (2 : ℚ) ^ (ulpExp x + 1) ≤ 2 ^ ulpExp y :=
        zpow_le_zpow_right₀ (by norm_num) (by omega)
      rw [zpow_add₀ h2ne] at this
      push_cast
      linarith
    linarith

/-- Values `m * 2 ^ k` with a 53-bit significand and exponent in range are doubles. -/
theorem roundDouble_dyadic (m k : ℤ) (hm : |m| < 2 ^ 53) (hk : -1074 ≤ k) :
    roundDouble ((m : ℚ) * 2 ^ k) = m * 2 ^ k := by
  rcases eq_or_ne m 0 with rfl | hm0
  · simp [roundDouble_zero]
  have hx0 : (m : ℚ) * 2 ^ k ≠ 0 := mul_ne_zero (by exact_mod_cast hm0) (ne_of_gt (two_zpow_pos k))
  have h2ne : (2 : ℚ) ≠ 0 := by norm_num
  have hlt : ilog2 ((m : ℚ) * 2 ^ k) < 53 + k := by
    rw [ilog2_lt_iff hx0, abs_mul, abs_of_pos (two_zpow_pos k), zpow_add₀ h2ne]
    apply mul_lt_mul_of_pos_right _ (two_zpow_pos k)
    have : ((|m| : ℤ) : ℚ) < ((2 ^ 53 : ℤ) : ℚ) := by exact_mod_cast hm
    rw [Int.cast_abs] at this
    calc |(m : ℚ)| < ((2 ^ 53 : ℤ) : ℚ) := this
      _ = 2 ^ (53 : ℤ) := by norm_num
  unfold roundDouble
  apply grid_round_exact
  unfold ulpExp
  omega

theorem roundDouble_natCast (n : ℕ) (hn : n < 2 ^ 53) : roundDouble (n : ℚ) = n := by
  have := roundDouble_dyadic (n : ℤ) 0 (by rw [abs_of_nonneg (by positivity)]; exact_mod_cast hn)
    (by norm_num)
  simpa using this

/-- Every rounded non-negative value has a 53-bit significand at an exponent that is at
least the one it was rounded at. -/
theorem roundDouble_repr {x : ℚ} (hx : 0 ≤ x) :
    ∃ m k : ℤ, |m| < 2 ^ 53 ∧ ulpExp x ≤ k ∧ roundDouble x = m * 2 ^ k := by
  rcases eq_or_lt_of_le hx with h0 | hpos
  · refine ⟨0, ulpExp x, by norm_num, le_refl _, ?_⟩
    rw [← h0]; simp [roundDouble_zero]
  have hp := two_zpow_pos (ulpExp x)
  have h2ne : (2 : ℚ) ≠ 0 := by norm_num
  have hn0 : (0 : ℤ) ≤ rne (x / 2 ^ ulpExp x) := by
    have := rne_mono (show (0 : ℚ) ≤ x / 2 ^ ulpExp x from div_nonneg hx (le_of_lt hp))
    have h0 : rne (0 : ℚ) = 0 := by simpa using rne_intCast 0
    omega
  have hn1 : rne (x / 2 ^ ulpExp x) ≤ 2 ^ 53 := by
    have h1 : x / 2 ^ ulpExp x ≤ ((2 ^ 53 : ℤ) : ℚ) := by
      rw [div_le_iff₀ hp]; push_cast; exact le_of_lt (lt_binade_top hpos)
    have h2 := rne_mono h1
    rwa [rne_intCast] at h2
  rcases eq_or_lt_of_le hn1 with heq | hlt
  · refine ⟨2 ^ 52, ulpExp x + 1, by norm_num, by omega, ?_⟩
    unfold roundDouble
    rw [heq, zpow_add₀ h2ne]
    push_cast
    ring
  · exact ⟨rne (x / 2 ^ ulpExp x), ulpExp x, by rw [abs_of_nonneg hn0]; exact hlt,
      le_refl _, rfl⟩

/-- Halving a rounded value and truncating: the `double` quotient by two has the same
integer part as the exact half. -/
theorem floor_fdiv_two {x : ℚ} (hx : 0 ≤ x) :
    ⌊fdiv (roundDouble x) 2⌋ = ⌊roundDouble x / 2⌋ := by
  have h2ne : (2 : ℚ) ≠ 0 := by norm_num
  by_cases he : -1074 < ulpExp x
  · obtain ⟨m, k, hm, hk, hr⟩ := roundDouble_repr hx
    have e1 : roundDouble x / 2 = (m : ℚ) * 2 ^ (k - 1) := by
      rw [hr, zpow_sub₀ h2ne]; simp; ring
    unfold fdiv
    rw [e1, roundDouble_dyadic m (k - 1) hm (by omega)]
  · have hu : ulpExp x = -1074 := by unfold ulpExp at he ⊢; omega
    have hr0 := roundDouble_nonneg hx
    have hone : roundDouble 1 = 1 := by simpa using roundDouble_dyadic 1 0 (by norm_num) (by norm_num)
    have hhalf : roundDouble (1 / 2) = 1 / 2 := by
      simpa using roundDouble_dyadic 1 (-1) (by norm_num) (by norm_num)
    have hx1 : x ≤ 1 := by
      rcases eq_or_lt_of_le hx with h0 | hpos
      · rw [← h0]; norm_num
      · have := lt_binade_top hpos
        rw [hu] at this
        have h3 : (2 : ℚ) ^ 53 * 2 ^ (-1074 : ℤ) ≤ 1 := by
          rw [show (2 : ℚ) ^ 53 = 2 ^ (53 : ℤ) by norm_num, ← zpow_add₀ h2ne]
          exact zpow_le_one_of_nonpos₀ (by norm_num) (by norm_num)
        linarith
    have hr1 : roundDouble x ≤ 1 := by
      have := roundDouble_mono hx hx1
      rwa [hone] at this
    have hq0 : 0 ≤ fdiv (roundDouble x) 2 := roundDouble_nonneg (by positivity)
    have hq1 : fdiv (roundDouble x) 2 ≤ 1 / 2 := by
      have := roundDouble_mono (show (0 : ℚ) ≤ roundDouble x / 2 by positivity)
        (show roundDouble x / 2 ≤ 1 / 2 by linarith)
      rwa [hhalf] at this
    have f1 : ⌊fdiv (roundDouble x) 2⌋ = 0 := by
      rw [Int.floor_eq_iff]; constructor <;> push_cast <;> linarith
    have f2 : ⌊roundDouble x / 2⌋ = 0 := by
      rw [Int.floor_eq_iff]; constructor <;> push_cast <;> linarith
    rw [f1, f2]

/-! ## Lemmas on the redraw pass -/

theorem roundDouble_one : roundDouble 1 = 1 := by
  simpa using roundDouble_dyadic 1 0 (by norm_num) (by norm_num)

theorem roundDouble_hundred : roundDouble 100 = 100 := by
  simpa using roundDouble_natCast 100 (by norm_num)

/-- The value of `percent` is a rounded non-negative number. -/
theorem percent_eq_roundDouble (d : ProgressData) :
    ∃ x : ℚ, 0 ≤ x ∧ percent d = roundDouble x := by
  unfold percent
  split_ifs with h
  · refine ⟨fdiv (toDouble d.processed) (toDouble d.total) * 100, ?_, rfl⟩
    have h1 : 0 ≤ toDouble d.processed := roundDouble_nonneg (by positivity)
    have h2 : 0 ≤ toDouble d.total := roundDouble_nonneg (by positivity)
    have h3 : 0 ≤ fdiv (toDouble d.processed) (toDouble d.total) :=
      roundDouble_nonneg (div_nonneg h1 h2)
    positivity
  · exact ⟨0, le_refl _, roundDouble_zero.symm⟩

theorem percent_nonneg (d : ProgressData) : 0 ≤ percent d := by
  obtain ⟨x, hx, h⟩ := percent_eq_roundDouble d
  rw [h]; exact roundDouble_nonneg hx

theorem one_le_toDouble {n : ℕ} (hn : 0 < n) : 1 ≤ toDouble n := by
  have h1 : (1 : ℚ) ≤ n := by exact_mod_cast hn
  have := roundDouble_mono (by norm_num) h1
  rwa [roundDouble_one] at this

theorem percent_le_hundred (d : ProgressData) (h : d.processed ≤ d.total) :
    percent d ≤ 100 := by
  unfold percent
  split_ifs with ht
  · have ha : 0 ≤ toDouble d.processed := roundDouble_nonneg (by positivity)
    have hb : 1 ≤ toDouble d.total := one_le_toDouble ht
    have hab : toDouble d.processed ≤ toDouble d.total :=
      roundDouble_mono (by positivity) (by exact_mod_cast h)
    have hq : toDouble d.processed / toDouble d.total ≤ 1 := by
      rw [div_le_one (by linarith)]; exact hab
    have hq0 : 0 ≤ toDouble d.processed / toDouble d.total := div_nonneg ha (by linarith)
    have h1 : fdiv (toDouble d.processed) (toDouble d.total) ≤ 1 := by
      have := roundDouble_mono hq0 hq
      rwa [roundDouble_one] at this
    have h0 : 0 ≤ fdiv (toDouble d.processed) (toDouble d.total) := roundDouble_nonneg hq0
    have := roundDouble_mono (show (0 : ℚ) ≤ fdiv (toDouble d.processed) (toDouble d.total) * 100
      by positivity) (show fdiv (toDouble d.processed) (toDouble d.total) * 100 ≤ 100 by linarith)
    rwa [roundDouble_hundred] at this
  · norm_num

/-- The cast `(size_t)(percent / 2)` yields the integer part of half the percentage
whenever that lies in the range of `size_t`. -/
theorem completed_eq (d : ProgressData) (h : percent d / 2 < 2 ^ 64) :
    completed d = some ⌊percent d / 2⌋.toNat := by
  obtain ⟨x, hx, hp⟩ := percent_eq_roundDouble d
  have hfl : ⌊fdiv (percent d) 2⌋ = ⌊percent d / 2⌋ := by rw [hp]; exact floor_fdiv_two hx
  have h0 : 0 ≤ fdiv (percent d) 2 :=
    roundDouble_nonneg (div_nonneg (percent_nonneg d) (by norm_num))
  have hlt : fdiv (percent d) 2 < 2 ^ 64 := by
    have h1 : ⌊percent d / 2⌋ < 2 ^ 64 := by
      rw [Int.floor_lt]; push_cast; exact h
    rw [← hfl, Int.floor_lt] at h1
    push_cast at h1; exact h1
  unfold completed toSizeT
  rw [if_pos ⟨by linarith, hlt⟩, hfl]

theorem subSizeT_of_le {a b : ℕ} (hb : b ≤ a) (ha : a < 2 ^ 64) : subSizeT a b = a - b := by
  unfold subSizeT
  have hb2 : b % 2 ^ 64 = b := Nat.mod_eq_of_lt (by omega)
  rw [hb2]
  omega

/-- The row written for a record whose percentage is at most 100. -/
theorem renderRow_of_le_hundred (line id : Int) (d : ProgressData) (now : Int)
    (h : percent d ≤ 100) :
    renderRow line id d now = some ⟨line, id, d.name,
      List.replicate ⌊percent d / 2⌋.toNat filledGlyph,
      List.replicate (50 - ⌊percent d / 2⌋.toNat) emptyGlyph,
      percent d, formatTimeDuration (now - d.startTime)⟩ := by
  have hc := completed_eq d (by linarith)
  have hle : ⌊percent d / 2⌋.toNat ≤ 50 := by
    have : ⌊percent d / 2⌋ < 51 := by
      rw [Int.floor_lt]; push_cast; linarith
    omega
  unfold renderRow
  simp only [hc]
  have s1 : stdString ⌊percent d / 2⌋.toNat filledGlyph
      = some (List.replicate ⌊percent d / 2⌋.toNat filledGlyph) := by
    unfold stdString stringMaxSize; rw [if_pos (by omega)]
  have s2 : stdString (subSizeT barWidth ⌊percent d / 2⌋.toNat) emptyGlyph
      = some (List.replicate (50 - ⌊percent d / 2⌋.toNat) emptyGlyph) := by
    rw [subSizeT_of_le (by unfold barWidth; exact hle) (by unfold barWidth; norm_num)]
    unfold stdString stringMaxSize barWidth; rw [if_pos (by omega)]
  rw [s1, s2]

theorem redrawPass_of_le_hundred (now : Int → Int) (m : ProgressMap) :
    ∀ line : Int, (∀ e ∈ m, percent e.2 ≤ 100) →
      (redrawPass now line m).2 = true ∧
      (redrawPass now line m).1.map Row.id = m.keys ∧
      (redrawPass now line m).1.map Row.line
        = (List.range m.length).map (fun (k : Nat) => line + 1 + (k : Int)) := by
  induction m with
  | nil => intro line _; simp [redrawPass, ProgressMap.keys]
  | cons e rest ih =>
    obtain ⟨id, d⟩ := e
    intro line h
    have hd : percent d ≤ 100 := h (id, d) (by simp)
    have hrest := ih (line + 1) (fun e he => h e (List.mem_cons_of_mem _ he))
    unfold redrawPass
    rw [renderRow_of_le_hundred _ _ _ _ hd]
    refine ⟨hrest.1, ?_, ?_⟩
    · simp only [List.map_cons, ProgressMap.keys]
      rw [hrest.2.1]; rfl
    · simp only [List.map_cons, List.length_cons]
      rw [hrest.2.2, List.range_succ_eq_map, List.map_cons, List.map_map]
      congr 1
      · simp
      · apply List.map_congr_left
        intro k _
        simp only [Function.comp_apply]
        push_cast; ring

theorem forall_assignAt (P : ProgressData → Prop) (m : ProgressMap) (id : Int)
    (f : ProgressData → ProgressData) (h0 : P (f {})) (hf : ∀ d, P d → P (f d))
    (hm : ∀ e ∈ m, P e.2) : ∀ e ∈ m.assignAt id f, P e.2 := by
  induction m with
  | nil =>
    intro e he
    simp only [ProgressMap.assignAt, List.mem_singleton] at he
    rw [he]; exact h0
  | cons a rest ih =>
    obtain ⟨k, v⟩ := a
    have hv : P v := hm (k, v) (by simp)
    have hr : ∀ e ∈ rest, P e.2 := fun e he => hm e (List.mem_cons_of_mem _ he)
    intro e he
    unfold ProgressMap.assignAt at he
    split_ifs at he with h1 h2
    · simp only [List.mem_cons] at he
      rcases he with rfl | rfl | he
      · exact h0
      · exact hv
      · exact hr e he
    · simp only [List.mem_cons] at he
      rcases he with rfl | he
      · exact hf v hv
      · exact hr e he
    · simp only [List.mem_cons] at he
      rcases he with rfl | he
      · exact hv
      · exact ih hr e he

namespace ProgressBar

theorem addProgressBar_progressBars (s : ProgressBar) (id : Int) (name : String) (total : Nat)
    (now : Int) :
    (s.addProgressBar id name total now).progressBars
      = ((s.progressBars.assignAt id (fun d => { d with total := total })).assignAt id
          (fun d => { d with name := name })).assignAt id (fun d => { d with startTime := now }) := by
  simp only [addProgressBar, start]
  split_ifs <;> rfl

theorem addProgressBar_ordered (s : ProgressBar) (id : Int) (name : String) (total : Nat)
    (now : Int) (h : s.progressBars.Ordered) :
    (s.addProgressBar id name total now).progressBars.Ordered := by
  rw [addProgressBar_progressBars]
  exact ProgressMap.ordered_assignAt _ _ _
    (ProgressMap.ordered_assignAt _ _ _ (ProgressMap.ordered_assignAt _ _ _ h))

theorem addProgressBar_keys (s : ProgressBar) (id : Int) (name : String) (total : Nat)
    (now : Int) (j : Int) :
    j ∈ (s.addProgressBar id name total now).progressBars.keys
      ↔ j = id ∨ j ∈ s.progressBars.keys := by
  rw [addProgressBar_progressBars]
  simp only [ProgressMap.keys_assignAt_subset]
  tauto

theorem addProgressBar_processed (s : ProgressBar) (id : Int) (name : String) (total : Nat)
    (now : Int) (h : ∀ e ∈ s.progressBars, e.2.processed = 0) :
    ∀ e ∈ (s.addProgressBar id name total now).progressBars, e.2.processed = 0 := by
  rw [addProgressBar_progressBars]
  have h1 := forall_assignAt (fun d => d.processed = 0) s.progressBars id
    (fun d => { d with total := total }) rfl (fun _ hd => hd) h
  have h2 := forall_assignAt (fun d => d.processed = 0) _ id
    (fun d => { d with name := name }) rfl (fun _ hd => hd) h1
  exact forall_assignAt (fun d => d.processed = 0) _ id
    (fun d => { d with startTime := now }) rfl (fun _ hd => hd) h2

/-- What registrations alone establish, from any state that has it already: the map is
ordered, no record has progress, and the keys are the old ones and the registered ones. -/
theorem registerAll_spec (regs : List (Int × String × Nat × Int)) :
    ∀ s : ProgressBar, s.progressBars.Ordered → (∀ e ∈ s.progressBars, e.2.processed = 0) →
      (s.registerAll regs).progressBars.Ordered ∧
      (∀ e ∈ (s.registerAll regs).progressBars, e.2.processed = 0) ∧
      (∀ j, j ∈ (s.registerAll regs).progressBars.keys
        ↔ j ∈ s.progressBars.keys ∨ j ∈ regs.map Prod.fst) := by
  induction regs with
  | nil => intro s h1 h2; exact ⟨h1, h2, fun j => by simp [registerAll]⟩
  | cons r rest ih =>
    intro s h1 h2
    have := ih (s.addProgressBar r.1 r.2.1 r.2.2.1 r.2.2.2)
      (addProgressBar_ordered _ _ _ _ _ h1) (addProgressBar_processed _ _ _ _ _ h2)
    simp only [registerAll, List.foldl_cons] at this ⊢
    refine ⟨this.1, this.2.1, ?_⟩
    intro j
    rw [this.2.2 j, addProgressBar_keys]
    simp only [List.map_cons, List.mem_cons]
    tauto

end ProgressBar

theorem percent_of_processed_zero (d : ProgressData) (h : d.processed = 0) : percent d = 0 := by
  unfold percent toDouble fdiv fmul
  rw [h]
  split_ifs <;> simp [roundDouble_zero]

/-! ## Lemmas on the lifecycle -/

namespace ProgressBar

theorem consistent_init : Consistent init := by
  simp [Consistent, init]

theorem consistent_step (s : ProgressBar) (e : Event) (h : Consistent s) :
    Consistent (s.step e) := by
  obtain ⟨m, sf, ts, ⟨j, r⟩, out, jn, term⟩ := s
  simp only [Consistent] at h
  unfold step
  cases term
  · cases e with
    | addProgressBar id name total now =>
      cases ts <;> simp_all [Consistent, addProgressBar, start]
    | updateProgress id p =>
      simp only [updateProgress]
      split_ifs <;> simp_all [Consistent]
    | markFinished id =>
      simp only [markFinished]
      split_ifs <;> simp_all [Consistent]
    | stop =>
      cases ts <;> cases j <;> simp_all [Consistent, stop]
    | redraw now =>
      simp only [runIteration]
      split_ifs <;> simp_all [Consistent]
  · simpa [Consistent] using h

theorem consistent_runEvents (es : List Event) :
    ∀ s : ProgressBar, Consistent s → Consistent (s.runEvents es) := by
  induction es with
  | nil => intro s h; exact h
  | cons e rest ih =>
    intro s h
    simp only [runEvents, List.foldl_cons]
    exact ih _ (consistent_step s e h)

theorem threadStarted_step (s : ProgressBar) (e : Event) (h : s.threadStarted = true) :
    (s.step e).threadStarted = true := by
  obtain ⟨m, sf, ts, ⟨j, r⟩, out, jn, term⟩ := s
  simp only at h
  subst h
  unfold step
  cases term
  · cases e with
    | addProgressBar id name total now => simp [addProgressBar, start]
    | updateProgress id p => simp only [updateProgress]; split_ifs <;> simp
    | markFinished id => simp only [markFinished]; split_ifs <;> simp
    | stop => cases j <;> simp [stop]
    | redraw now => simp only [runIteration]; split_ifs <;> simp
  · simp

theorem threadStarted_runEvents (es : List Event) :
    ∀ s : ProgressBar, s.threadStarted = true → (s.runEvents es).threadStarted = true := by
  induction es with
  | nil => intro s h; exact h
  | cons e rest ih =>
    intro s h
    simp only [runEvents, List.foldl_cons]
    exact ih _ (threadStarted_step s e h)

/-- A registration leaves `threadStarted` set. -/
theorem threadStarted_step_addProgressBar (s : ProgressBar) (id : Int) (name : String)
    (total : Nat) (now : Int) (h : Consistent s) :
    (s.step (.addProgressBar id name total now)).threadStarted = true := by
  obtain ⟨m, sf, ts, ⟨j, r⟩, out, jn, term⟩ := s
  simp only [Consistent] at h
  unfold step
  cases term
  · cases ts <;> simp [addProgressBar, start]
  · simpa using h.2.2.1

theorem threadStarted_of_mem (es : List Event) :
    ∀ s : ProgressBar, Consistent s →
      (∃ id name total now, Event.addProgressBar id name total now ∈ es) →
      (s.runEvents es).threadStarted = true := by
  induction es with
  | nil => intro s _ h; simp at h
  | cons e rest ih =>
    intro s hs h
    obtain ⟨id, name, total, now, hmem⟩ := h
    simp only [runEvents, List.foldl_cons]
    rcases List.mem_cons.1 hmem with heq | hin
    · apply threadStarted_runEvents
      rw [← heq]
      exact threadStarted_step_addProgressBar s id name total now hs
    · exact ih _ (consistent_step s e hs) ⟨id, name, total, now, hin⟩

/-- Once the thread was started and is not running, no event writes or restarts it. -/
theorem quiet_step (s : ProgressBar) (e : Event) (h : Quiet s) :
    Quiet (s.step e) ∧ (s.step e).output = s.output := by
  obtain ⟨m, sf, ts, ⟨j, r⟩, out, jn, term⟩ := s
  simp only [Quiet] at h
  obtain ⟨h1, h2⟩ := h
  subst h1; subst h2
  unfold step
  cases term
  · cases e with
    | addProgressBar id name total now => simp [Quiet, addProgressBar, start]
    | updateProgress id p => simp only [updateProgress]; split_ifs <;> simp [Quiet]
    | markFinished id => simp only [markFinished]; split_ifs <;> simp [Quiet]
    | stop => cases j <;> simp [Quiet, stop]
    | redraw now => simp [Quiet, runIteration]
  · simp [Quiet]

theorem quiet_runEvents (es : List Event) :
    ∀ s : ProgressBar, Quiet s → Quiet (s.runEvents es) ∧ (s.runEvents es).output = s.output := by
  induction es with
  | nil => intro s h; exact ⟨h, rfl⟩
  | cons e rest ih =>
    intro s h
    simp only [runEvents, List.foldl_cons]
    have h1 := quiet_step s e h
    have h2 := ih _ h1.1
    exact ⟨h2.1, h2.2.trans h1.2⟩

/-- Every event keeps the map ordered. -/
theorem ordered_step (s : ProgressBar) (e : Event) (h : s.progressBars.Ordered) :
    (s.step e).progressBars.Ordered := by
  unfold step
  split_ifs with ht
  · exact h
  · cases e with
    | addProgressBar id name total now => exact addProgressBar_ordered s id name total now h
    | updateProgress id p =>
      simp only [updateProgress]
      split_ifs
      · exact ProgressMap.ordered_assignAt _ _ _ h
      · exact h
    | markFinished id =>
      simp only [markFinished]
      split_ifs
      · exact ProgressMap.ordered_assignAt _ _ _ h
      · exact h
    | stop =>
      simp only [stop]
      split_ifs <;> exact h
    | redraw now =>
      simp only [runIteration]
      split_ifs <;> exact h

/-- The map of every state reached from a new object is ordered. -/
theorem ordered_runEvents (es : List Event) :
    ∀ s : ProgressBar, s.progressBars.Ordered → (s.runEvents es).progressBars.Ordered := by
  induction es with
  | nil => intro s h; exact h
  | cons e rest ih =>
    intro s h
    simp only [runEvents, List.foldl_cons]
    exact ih _ (ordered_step s e h)

/-- A `stop()` on a started object leaves the display thread not running. -/
theorem quiet_step_stop (s : ProgressBar) (h : Consistent s) (hts : s.threadStarted = true) :
    Quiet (s.step .stop) := by
  obtain ⟨m, sf, ts, ⟨j, r⟩, out, jn, term⟩ := s
  simp only [Consistent] at h
  simp only at hts
  subst hts
  unfold step
  cases term
  · cases j <;> cases r <;> simp_all [Quiet, stop]
  · simp_all [Quiet]

end ProgressBar

/-! ## Lemmas on the percentage -/

theorem rne_eq_of_near {z : ℚ} {n : ℤ} (h1 : (n : ℚ) - 1 / 2 < z) (h2 : z < n + 1 / 2) :
    rne z = n := by
  have h := abs_rne_sub_le z
  rw [abs_le] at h
  have a1 : ((rne z : ℤ) : ℚ) < ((n + 1 : ℤ) : ℚ) := by push_cast; linarith
  have a2 : ((n - 1 : ℤ) : ℚ) < ((rne z : ℤ) : ℚ) := by push_cast; linarith
  have b1 : rne z < n + 1 := by exact_mod_cast a1
  have b2 : n - 1 < rne z := by exact_mod_cast a2
  omega

/-- Evaluation of `roundDouble` at a positive number from its binade and its neighbour. -/
theorem roundDouble_eval {x : ℚ} (e n : ℤ) (he : -1074 ≤ e)
    (h1 : (2 : ℚ) ^ (e + 52) ≤ x) (h2 : x < (2 : ℚ) ^ (e + 53))
    (hn1 : (n : ℚ) - 1 / 2 < x / 2 ^ e) (hn2 : x / 2 ^ e < n + 1 / 2) :
    roundDouble x = n * 2 ^ e := by
  have hx : 0 < x := lt_of_lt_of_le (two_zpow_pos _) h1
  have hl : ilog2 x = e + 52 := by
    have a := (le_ilog2_iff (ne_of_gt hx) (e + 52)).2 (by rw [abs_of_pos hx]; exact h1)
    have b := (ilog2_lt_iff (ne_of_gt hx) (e + 53)).2 (by rw [abs_of_pos hx]; exact h2)
    omega
  have hu : ulpExp x = e := by unfold ulpExp; omega
  unfold roundDouble
  rw [hu, rne_eq_of_near hn1 hn2]

theorem fdiv_58_100 : fdiv 58 100 = 5224175567749775 * 2 ^ (-53 : ℤ) := by
  unfold fdiv
  have := @roundDouble_eval (58 / 100) (-53) 5224175567749775 (by norm_num) (by norm_num)
    (by norm_num) (by norm_num) (by norm_num)
  simpa using this

theorem percent_58_100 (name : String) (t : Int) (f : Bool) :
    percent ⟨58, 100, name, t, f⟩ = 8162774324609023 * 2 ^ (-47 : ℤ) := by
  unfold percent toDouble
  simp only [gt_iff_lt, Nat.ofNat_pos, if_true]
  have h58 : roundDouble ((58 : ℕ) : ℚ) = 58 := by simpa using roundDouble_natCast 58 (by norm_num)
  have h100 : roundDouble ((100 : ℕ) : ℚ) = 100 := by simpa using roundDouble_natCast 100 (by norm_num)
  rw [h58, h100, fdiv_58_100]
  unfold fmul
  have := @roundDouble_eval (5224175567749775 * 2 ^ (-53 : ℤ) * 100) (-47) 8162774324609023
    (by norm_num) (by norm_num) (by norm_num) (by norm_num) (by norm_num)
  simpa using this

theorem percent_100_200 (name : String) (t : Int) (f : Bool) :
    percent ⟨100, 200, name, t, f⟩ = 50 := by
  unfold percent toDouble
  simp only [gt_iff_lt, Nat.ofNat_pos, if_true]
  have h200 : roundDouble ((200 : ℕ) : ℚ) = 200 := by simpa using roundDouble_natCast 200 (by norm_num)
  have h100 : roundDouble ((100 : ℕ) : ℚ) = 100 := by simpa using roundDouble_natCast 100 (by norm_num)
  have hhalf : roundDouble (1 / 2) = 1 / 2 := by
    simpa using roundDouble_dyadic 1 (-1) (by norm_num) (by norm_num)
  have h50 : roundDouble 50 = 50 := by simpa using roundDouble_natCast 50 (by norm_num)
  rw [h200, h100]
  unfold fdiv fmul
  rw [show (100 : ℚ) / 200 = 1 / 2 by norm_num, hhalf, show (1 : ℚ) / 2 * 100 = 50 by norm_num, h50]

/-- Relative accuracy of rounding above the subnormal range. -/
theorem abs_roundDouble_sub_le {x : ℚ} (hx : (2 : ℚ) ^ (-1022 : ℤ) ≤ x) :
    |roundDouble x - x| ≤ x / 2 ^ 53 := by
  have hpos : 0 < x := lt_of_lt_of_le (two_zpow_pos _) hx
  have h2ne : (2 : ℚ) ≠ 0 := by norm_num
  have hl : -1022 ≤ ilog2 x := (le_ilog2_iff (ne_of_gt hpos) _).2 (by rw [abs_of_pos hpos]; exact hx)
  have hu : ulpExp x = ilog2 x - 52 := by unfold ulpExp; omega
  have hp := two_zpow_pos (ulpExp x)
  have hb : 2 ^ 52 * 2 ^ ulpExp x ≤ x := binade_bottom_le hpos hu
  have hr := abs_rne_sub_le (x / 2 ^ ulpExp x)
  have e1 : roundDouble x - x = ((rne (x / 2 ^ ulpExp x) : ℚ) - x / 2 ^ ulpExp x) * 2 ^ ulpExp x := by
    unfold roundDouble; field_simp
  rw [e1, abs_mul, abs_of_pos hp]
  calc |(rne (x / 2 ^ ulpExp x) : ℚ) - x / 2 ^ ulpExp x| * 2 ^ ulpExp x
      ≤ 1 / 2 * 2 ^ ulpExp x := mul_le_mul_of_nonneg_right hr (le_of_lt hp)
    _ ≤ x / 2 ^ 53 := by
        rw [le_div_iff₀ (by positivity)]
        have : (1 : ℚ) / 2 * 2 ^ ulpExp x * 2 ^ 53 = 2 ^ 52 * 2 ^ ulpExp x := by ring
        rw [this]; exact hb

theorem roundDouble_bounds {x : ℚ} (hx : (2 : ℚ) ^ (-1022 : ℤ) ≤ x) :
    x * (1 - 1 / 2 ^ 53) ≤ roundDouble x ∧ roundDouble x ≤ x * (1 + 1 / 2 ^ 53) := by
  have h := abs_roundDouble_sub_le hx
  rw [abs_le] at h
  constructor <;> linarith [h.1, h.2]

theorem minNormal_le_two_zpow : (2 : ℚ) ^ (-1022 : ℤ) ≤ 2 ^ (-64 : ℤ) :=
  zpow_le_zpow_right₀ (by norm_num) (by norm_num)

/-- Accuracy of `percent`: for `size_t` operands and a positive total the computed value
is within a relative `2 ^ (-50)` of `processed / total * 100`. -/
theorem percent_accuracy (d : ProgressData) (ht : d.total < 2 ^ 64)
    (ht0 : 0 < d.total) :
    |percent d - (d.processed : ℚ) / d.total * 100|
      ≤ (d.processed : ℚ) / d.total * 100 / 2 ^ 50 := by
  rcases Nat.eq_zero_or_pos d.processed with hz | hp0
  · rw [percent_of_processed_zero d hz, hz]; simp
  have h2ne : (2 : ℚ) ≠ 0 := by norm_num
  have hP : (1 : ℚ) ≤ d.processed := by exact_mod_cast hp0
  have hT : (1 : ℚ) ≤ d.total := by exact_mod_cast ht0
  have hT2 : (d.total : ℚ) ≤ 2 ^ 64 := by exact_mod_cast le_of_lt ht
  have hsm1 : (2 : ℚ) ^ (-1022 : ℤ) ≤ 1 := zpow_le_one_of_nonpos₀ (by norm_num) (by norm_num)
  have hsm64 : (2 : ℚ) ^ (-64 : ℤ) = 1 / 2 ^ 64 := by
    rw [zpow_neg, one_div]; norm_num
  -- the four roundings
  obtain ⟨a1, a2⟩ := @roundDouble_bounds (d.processed : ℚ) (le_trans hsm1 hP)
  obtain ⟨b1, b2⟩ := @roundDouble_bounds (d.total : ℚ) (le_trans hsm1 hT)
  have ha : 1 ≤ toDouble d.processed := one_le_toDouble hp0
  have hb : 1 ≤ toDouble d.total := one_le_toDouble ht0
  have hb64 : toDouble d.total ≤ 2 ^ 64 := by
    have := roundDouble_mono (show (0 : ℚ) ≤ d.total by positivity) hT2
    have h64 : roundDouble ((2 : ℚ) ^ 64) = 2 ^ 64 := by
      have := roundDouble_dyadic 1 64 (by norm_num) (by norm_num)
      rw [show ((1 : ℤ) : ℚ) * 2 ^ (64 : ℤ) = 2 ^ 64 by norm_num] at this
      exact this
    rw [h64] at this; exact this
  have hq64 : (2 : ℚ) ^ (-64 : ℤ) ≤ toDouble d.processed / toDouble d.total := by
    rw [hsm64, div_le_div_iff₀ (by positivity) (by linarith)]
    calc (1 : ℚ) * toDouble d.total ≤ 1 * 2 ^ 64 := by linarith
      _ ≤ toDouble d.processed * 2 ^ 64 := mul_le_mul_of_nonneg_right ha (by positivity)
  obtain ⟨q1, q2⟩ := @roundDouble_bounds (toDouble d.processed / toDouble d.total)
    (le_trans minNormal_le_two_zpow hq64)
  have hq : (2 : ℚ) ^ (-64 : ℤ) ≤ fdiv (toDouble d.processed) (toDouble d.total) := by
    have := roundDouble_mono (le_of_lt (two_zpow_pos (-64))) hq64
    have h64 : roundDouble ((2 : ℚ) ^ (-64 : ℤ)) = 2 ^ (-64 : ℤ) := by
      have := roundDouble_dyadic 1 (-64) (by norm_num) (by norm_num)
      simpa using this
    rw [h64] at this; exact this
  have hq100 : (2 : ℚ) ^ (-1022 : ℤ) ≤ fdiv (toDouble d.processed) (toDouble d.total) * 100 := by
    have h1 := le_trans minNormal_le_two_zpow hq
    have h2 := two_zpow_pos (-1022)
    linarith
  obtain ⟨r1, r2⟩ := @roundDouble_bounds _ hq100
  have hperc : percent d = roundDouble (fdiv (toDouble d.processed) (toDouble d.total) * 100) := by
    unfold percent fmul; rw [if_pos ht0]
  -- names
  set P : ℚ := (d.processed : ℚ) with hPdef
  set T : ℚ := (d.total : ℚ) with hTdef
  set A : ℚ := toDouble d.processed with hAdef
  set B : ℚ := toDouble d.total with hBdef
  set Q : ℚ := fdiv A B with hQdef
  rw [hperc]
  set R : ℚ := roundDouble (Q * 100) with hRdef
  set u : ℚ := 1 / 2 ^ 53 with hu
  have hA1 : P * (1 - u) ≤ A := a1
  have hA2 : A ≤ P * (1 + u) := a2
  have hB1 : T * (1 - u) ≤ B := b1
  have hB2 : B ≤ T * (1 + u) := b2
  have hQ1 : A / B * (1 - u) ≤ Q := q1
  have hQ2 : Q ≤ A / B * (1 + u) := q2
  have hR1 : Q * 100 * (1 - u) ≤ R := r1
  have hR2 : R ≤ Q * 100 * (1 + u) := r2
  have hu0 : 0 < u := by rw [hu]; positivity
  have hu1 : u < 1 := by rw [hu]; norm_num
  have hTpos : 0 < T := by linarith
  have hBpos : 0 < B := by linarith
  have hApos : 0 < A := by linarith
  have hABu : A / B ≤ P / T * ((1 + u) / (1 - u)) := by
    rw [div_mul_div_comm]
    exact div_le_div₀ (mul_nonneg (by linarith) (by linarith)) hA2
      (mul_pos hTpos (by linarith)) hB1
  have hABl : P / T * ((1 - u) / (1 + u)) ≤ A / B := by
    rw [div_mul_div_comm]
    exact div_le_div₀ (le_of_lt hApos) hA1 hBpos hB2
  have hPT : 0 < P / T := by positivity
  have hAB0 : 0 < A / B := by positivity
  have h1u : 0 < 1 - u := by linarith
  have hQ0 : 0 < Q := lt_of_lt_of_le (mul_pos hAB0 h1u) hQ1
  have U1 : R ≤ P / T * 100 * ((1 + u) ^ 3 / (1 - u)) := by
    calc R ≤ Q * 100 * (1 + u) := hR2
      _ = Q * (100 * (1 + u)) := by ring
      _ ≤ (A / B * (1 + u)) * (100 * (1 + u)) :=
          mul_le_mul_of_nonneg_right hQ2 (by positivity)
      _ = A / B * ((1 + u) * (100 * (1 + u))) := by ring
      _ ≤ (P / T * ((1 + u) / (1 - u))) * ((1 + u) * (100 * (1 + u))) :=
          mul_le_mul_of_nonneg_right hABu (by positivity)
      _ = P / T * 100 * ((1 + u) ^ 3 / (1 - u)) := by ring
  have L1 : P / T * 100 * ((1 - u) ^ 3 / (1 + u)) ≤ R := by
    calc P / T * 100 * ((1 - u) ^ 3 / (1 + u))
        = (P / T * ((1 - u) / (1 + u))) * ((1 - u) * (100 * (1 - u))) := by ring
      _ ≤ A / B * ((1 - u) * (100 * (1 - u))) :=
          mul_le_mul_of_nonneg_right hABl (by positivity)
      _ = (A / B * (1 - u)) * (100 * (1 - u)) := by ring
      _ ≤ Q * (100 * (1 - u)) := mul_le_mul_of_nonneg_right hQ1 (by positivity)
      _ = Q * 100 * (1 - u) := by ring
      _ ≤ R := hR1
  have n1 : (1 + u) ^ 3 / (1 - u) ≤ 1 + 1 / 2 ^ 50 := by rw [hu]; norm_num
  have n2 : 1 - 1 / 2 ^ 50 ≤ (1 - u) ^ 3 / (1 + u) := by rw [hu]; norm_num
  have hE : 0 < P / T * 100 := by positivity
  rw [abs_le]
  constructor
  · have := mul_le_mul_of_nonneg_left n2 (le_of_lt hE)
    have e : P / T * 100 * (1 - 1 / 2 ^ 50) = P / T * 100 - P / T * 100 / 2 ^ 50 := by ring
    linarith
  · have := mul_le_mul_of_nonneg_left n1 (le_of_lt hE)
    have e : P / T * 100 * (1 + 1 / 2 ^ 50) = P / T * 100 + P / T * 100 / 2 ^ 50 := by ring
    linarith

theorem roundDouble_two_pow_64 : roundDouble ((2 : ℚ) ^ 64) = 2 ^ 64 := by
  have := roundDouble_dyadic 1 64 (by norm_num) (by norm_num)
  rw [show ((1 : ℤ) : ℚ) * 2 ^ (64 : ℤ) = 2 ^ 64 by norm_num] at this
  exact this

/-- No intermediate value of the percentage of `size_t` operands comes near the
overflow threshold `2 ^ 1024` of the binary64 format. -/
theorem percent_le_of_lt (d : ProgressData) (hp : d.processed < 2 ^ 64) :
    toDouble d.processed ≤ 2 ^ 64 ∧
    (0 < d.total → fdiv (toDouble d.processed) (toDouble d.total) ≤ 2 ^ 64) ∧
    percent d ≤ 2 ^ 71 := by
  have hP : (d.processed : ℚ) ≤ 2 ^ 64 := by exact_mod_cast le_of_lt hp
  have ha0 : 0 ≤ toDouble d.processed := roundDouble_nonneg (by positivity)
  have ha : toDouble d.processed ≤ 2 ^ 64 := by
    have := roundDouble_mono (show (0 : ℚ) ≤ d.processed by positivity) hP
    rwa [roundDouble_two_pow_64] at this
  have hq : 0 < d.total → fdiv (toDouble d.processed) (toDouble d.total) ≤ 2 ^ 64 := by
    intro ht
    have hb : 1 ≤ toDouble d.total := one_le_toDouble ht
    have h1 : toDouble d.processed / toDouble d.total ≤ 2 ^ 64 := by
      rw [div_le_iff₀ (by linarith)]
      calc toDouble d.processed ≤ 2 ^ 64 := ha
        _ = 2 ^ 64 * 1 := by ring
        _ ≤ 2 ^ 64 * toDouble d.total := mul_le_mul_of_nonneg_left hb (by positivity)
    have := roundDouble_mono (div_nonneg ha0 (by linarith)) h1
    rwa [roundDouble_two_pow_64] at this
  refine ⟨ha, hq, ?_⟩
  unfold percent
  split_ifs with ht
  · have h0 : 0 ≤ fdiv (toDouble d.processed) (toDouble d.total) :=
      roundDouble_nonneg (div_nonneg ha0 (roundDouble_nonneg (by positivity)))
    have h1 : fdiv (toDouble d.processed) (toDouble d.total) * 100 ≤ 2 ^ 71 := by
      have := hq ht
      calc fdiv (toDouble d.processed) (toDouble d.total) * 100 ≤ 2 ^ 64 * 100 :=
            mul_le_mul_of_nonneg_right this (by norm_num)
        _ ≤ 2 ^ 71 := by norm_num
    have h71 : roundDouble ((2 : ℚ) ^ 71) = 2 ^ 71 := by
      have := roundDouble_dyadic 1 71 (by norm_num) (by norm_num)
      rw [show ((1 : ℤ) : ℚ) * 2 ^ (71 : ℤ) = 2 ^ 71 by norm_num] at this
      exact this
    have := roundDouble_mono (mul_nonneg h0 (by norm_num)) h1
    unfold fmul
    rwa [h71] at this
  · positivity

theorem percent_200_100 (name : String) (t : Int) (f : Bool) :
    percent ⟨200, 100, name, t, f⟩ = 200 := by
  unfold percent toDouble
  simp only [gt_iff_lt, Nat.ofNat_pos, if_true]
  have h200 : roundDouble ((200 : ℕ) : ℚ) = 200 := by simpa using roundDouble_natCast 200 (by norm_num)
  have h100 : roundDouble ((100 : ℕ) : ℚ) = 100 := by simpa using roundDouble_natCast 100 (by norm_num)
  have h2 : roundDouble 2 = 2 := by simpa using roundDouble_natCast 2 (by norm_num)
  have h200' : roundDouble 200 = 200 := by simpa using roundDouble_natCast 200 (by norm_num)
  rw [h200, h100]
  unfold fdiv fmul
  rw [show (200 : ℚ) / 100 = 2 by norm_num, h2, show (2 : ℚ) * 100 = 200 by norm_num, h200']

theorem percent_self (n : Nat) (hn : 0 < n) (name : String) (t : Int) (f : Bool) :
    percent ⟨n, n, name, t, f⟩ = 100 := by
  unfold percent
  simp only [gt_iff_lt, hn, if_true]
  have h1 : (1 : ℚ) ≤ toDouble n := one_le_toDouble hn
  unfold fdiv fmul
  rw [div_self (by linarith), roundDouble_one, one_mul, roundDouble_hundred]

/-- The loop body does not complete for a record whose percentage is 102 or more. -/
theorem renderRow_none_of_ge (line id : Int) (d : ProgressData) (now : Int)
    (h : 102 ≤ percent d) : renderRow line id d now = none := by
  unfold renderRow
  simp only
  by_cases hlt : percent d / 2 < 2 ^ 64
  · rw [completed_eq d hlt]
    simp only
    have h51 : 51 ≤ ⌊percent d / 2⌋ := by
      rw [Int.le_floor]; push_cast; linarith
    have hc : 51 ≤ ⌊percent d / 2⌋.toNat := by omega
    have hc2 : ⌊percent d / 2⌋.toNat < 2 ^ 64 := by
      have : ⌊percent d / 2⌋ < 2 ^ 64 := by
        rw [Int.floor_lt]; push_cast; exact hlt
      omega
    by_cases hbig : ⌊percent d / 2⌋.toNat ≤ stringMaxSize
    · have hsub : ¬ subSizeT barWidth ⌊percent d / 2⌋.toNat ≤ stringMaxSize := by
        unfold subSizeT barWidth stringMaxSize at *
        have hb2 : ⌊percent d / 2⌋.toNat % 2 ^ 64 = ⌊percent d / 2⌋.toNat := Nat.mod_eq_of_lt hc2
        rw [hb2]
        omega
      simp [stdString, hsub]
    · simp [stdString, hbig]
  · have hc : completed d = none := by
      unfold completed toSizeT
      have hge : ¬ fdiv (percent d) 2 < 2 ^ 64 := by
        intro hcon
        apply hlt
        have h64 : roundDouble ((2 : ℚ) ^ 64) = 2 ^ 64 := by
          have := roundDouble_dyadic 1 64 (by norm_num) (by norm_num)
          rw [show ((1 : ℤ) : ℚ) * 2 ^ (64 : ℤ) = 2 ^ 64 by norm_num] at this
          exact this
        by_contra hcc
        push_neg at hcc
        have := roundDouble_mono (by positivity) hcc
        rw [h64] at this
        unfold fdiv at hcon
        linarith
      rw [if_neg (fun hh => hge hh.2)]
    rw [hc]

theorem renderRow_zero (line id : Int) (name : String) (total : Nat) (start now : Int) :
    renderRow line id ⟨0, total, name, start, false⟩ now
      = some ⟨line, id, name, [], List.replicate 50 emptyGlyph, 0,
          formatTimeDuration (now - start)⟩ := by
  have hp : percent ⟨0, total, name, start, false⟩ = 0 := percent_of_processed_zero _ rfl
  have h := renderRow_of_le_hundred line id ⟨0, total, name, start, false⟩ now
    (by rw [hp]; norm_num)
  rw [h, hp]
  simp

/-! ## The registry operations -/

/-- C1: on a registry whose map contains `id` with record `d`, `updateProgress(id, p)`
leaves under `id` the record `d` with `processed` replaced by `p` (name, total, startTime
and finished as before), leaves the record of every other id as it was, and leaves the
key sequence as it was. -/
theorem C1_updateProgress_sets_processed (s : ProgressBar) (id : Int) (p : Nat)
    (d : ProgressData) (hs : s.progressBars.Ordered)
    (hid : s.progressBars.find? id = some d) :
    (s.updateProgress id p).progressBars.find? id = some { d with processed := p } ∧
    (∀ j, j ≠ id → (s.updateProgress id p).progressBars.find? j = s.progressBars.find? j) ∧
    (s.updateProgress id p).progressBars.keys = s.progressBars.keys := by
  have hne : s.progressBars.find? id ≠ none := by rw [hid]; simp
  have hc : s.progressBars.count id ≠ 0 := (ProgressMap.count_ne_zero_iff _ _).2 hne
  have hmap : (s.updateProgress id p).progressBars
      = s.progressBars.assignAt id (fun d => { d with processed := p }) := by
    unfold ProgressBar.updateProgress
    rw [if_pos hc]
  rw [hmap]
  refine ⟨?_, ?_, ?_⟩
  · rw [ProgressMap.find?_assignAt_self _ _ _ hs, hid]; rfl
  · intro j hj
    exact ProgressMap.find?_assignAt_ne _ _ _ _ hj
  · exact ProgressMap.keys_assignAt_of_mem _ _ _ hs hne

/-- C1 at a registry with the two bars 1 and 2: `updateProgress(1, 5)`. -/
theorem C1_updateProgress_sets_processed_witness :
    (({ progressBars := [(1, ⟨0, 10, "a", 7, false⟩), (2, ⟨3, 4, "b", 8, true⟩)] } :
        ProgressBar).updateProgress 1 5).progressBars.find? 1 = some ⟨5, 10, "a", 7, false⟩ ∧
    (({ progressBars := [(1, ⟨0, 10, "a", 7, false⟩), (2, ⟨3, 4, "b", 8, true⟩)] } :
        ProgressBar).updateProgress 1 5).progressBars.find? 2 = some ⟨3, 4, "b", 8, true⟩ :=
  ⟨(C1_updateProgress_sets_processed
      { progressBars := [(1, ⟨0, 10, "a", 7, false⟩), (2, ⟨3, 4, "b", 8, true⟩)] } 1 5
      ⟨0, 10, "a", 7, false⟩ (by decide) (by decide)).1,
   ((C1_updateProgress_sets_processed
      { progressBars := [(1, ⟨0, 10, "a", 7, false⟩), (2, ⟨3, 4, "b", 8, true⟩)] } 1 5
      ⟨0, 10, "a", 7, false⟩ (by decide) (by decide)).2.1 2 (by decide)).trans (by decide)⟩

/-- C2: when `id` is not a key of the map, `updateProgress(id, p)` and
`markFinished(id)` each return the object state unchanged; in particular the map has the
same keys, the same size and the same records. -/
theorem C2_unknown_id_ignored (s : ProgressBar) (id : Int) (p : Nat)
    (hid : id ∉ s.progressBars.keys) :
    s.updateProgress id p = s ∧ s.markFinished id = s ∧
    (s.updateProgress id p).progressBars = s.progressBars ∧
    (s.markFinished id).progressBars = s.progressBars := by
  have hnone : ¬ s.progressBars.find? id ≠ none :=
    fun h => hid ((ProgressMap.mem_keys_iff_find? _ _).2 h)
  have hc : ¬ s.progressBars.count id ≠ 0 :=
    fun h => hnone ((ProgressMap.count_ne_zero_iff _ _).1 h)
  have h1 : s.updateProgress id p = s := by
    unfold ProgressBar.updateProgress; rw [if_neg hc]
  have h2 : s.markFinished id = s := by
    unfold ProgressBar.markFinished; rw [if_neg hc]
  exact ⟨h1, h2, by rw [h1], by rw [h2]⟩

/-- C2 at a registry holding bar 1 only: `updateProgress(2, 5)` and `markFinished(2)`. -/
theorem C2_unknown_id_ignored_witness :
    (({ progressBars := [(1, ⟨0, 10, "a", 7, false⟩)] } : ProgressBar).updateProgress 2 5).progressBars
      = [(1, ⟨0, 10, "a", 7, false⟩)] ∧
    (({ progressBars := [(1, ⟨0, 10, "a", 7, false⟩)] } : ProgressBar).markFinished 2).progressBars
      = [(1, ⟨0, 10, "a", 7, false⟩)] :=
  ⟨(C2_unknown_id_ignored { progressBars := [(1, ⟨0, 10, "a", 7, false⟩)] } 2 5 (by decide)).2.2.1,
   (C2_unknown_id_ignored { progressBars := [(1, ⟨0, 10, "a", 7, false⟩)] } 2 5 (by decide)).2.2.2⟩

/-- C3: after `addProgressBar(id, name, total)` with clock reading `now`, the map holds
under `id` a record with that name, total and `startTime = now`; its `processed` and
`finished` are those of the record that was there (not reset), or `0` and `false` when
`id` was new; the record of every other id is as before. -/
theorem C3_addProgressBar_record (s : ProgressBar) (id : Int) (name : String) (total : Nat)
    (now : Int) (hs : s.progressBars.Ordered) :
    (∀ d, s.progressBars.find? id = some d →
      (s.addProgressBar id name total now).progressBars.find? id
        = some ⟨d.processed, total, name, now, d.finished⟩) ∧
    (s.progressBars.find? id = none →
      (s.addProgressBar id name total now).progressBars.find? id
        = some ⟨0, total, name, now, false⟩) ∧
    (∀ j, j ≠ id →
      (s.addProgressBar id name total now).progressBars.find? j = s.progressBars.find? j) := by
  rw [ProgressBar.addProgressBar_progressBars]
  have o1 := ProgressMap.ordered_assignAt s.progressBars id (fun d => { d with total := total }) hs
  have o2 := ProgressMap.ordered_assignAt _ id (fun d => { d with name := name }) o1
  have hfind : (((s.progressBars.assignAt id (fun d => { d with total := total })).assignAt id
      (fun d => { d with name := name })).assignAt id
        (fun d => { d with startTime := now })).find? id
      = some ⟨((s.progressBars.find? id).getD {}).processed, total, name, now,
          ((s.progressBars.find? id).getD {}).finished⟩ := by
    rw [ProgressMap.find?_assignAt_self _ _ _ o2, ProgressMap.find?_assignAt_self _ _ _ o1,
      ProgressMap.find?_assignAt_self _ _ _ hs]
    rfl
  refine ⟨?_, ?_, ?_⟩
  · intro d hd
    rw [hfind, hd]; rfl
  · intro hn
    rw [hfind, hn]; rfl
  · intro j hj
    rw [ProgressMap.find?_assignAt_ne _ _ _ _ hj, ProgressMap.find?_assignAt_ne _ _ _ _ hj,
      ProgressMap.find?_assignAt_ne _ _ _ _ hj]

/-- C3 at a registry holding bar 2 with progress 3 and the finished flag set:
re-registering 2 keeps both, registering 1 starts from `0` and `false`. -/
theorem C3_addProgressBar_record_witness :
    (({ progressBars := [(2, ⟨3, 4, "b", 8, true⟩)] } : ProgressBar).addProgressBar
        2 "c" 9 20).progressBars.find? 2 = some ⟨3, 9, "c", 20, true⟩ ∧
    (({ progressBars := [(2, ⟨3, 4, "b", 8, true⟩)] } : ProgressBar).addProgressBar
        1 "a" 5 20).progressBars.find? 1 = some ⟨0, 5, "a", 20, false⟩ :=
  ⟨(C3_addProgressBar_record { progressBars := [(2, ⟨3, 4, "b", 8, true⟩)] } 2 "c" 9 20
      (by decide)).1 ⟨3, 4, "b", 8, true⟩ (by decide),
   (C3_addProgressBar_record { progressBars := [(2, ⟨3, 4, "b", 8, true⟩)] } 1 "a" 5 20
      (by decide)).2.1 (by decide)⟩

/-! ## The redraw pass -/

/-- C4: for every sequence of registrations on a new registry, in whatever order, one
redraw pass runs to its end and writes rows whose ids are strictly ascending, are exactly
the registered ids (one row each), and whose terminal rows are `1, 2, ..., n` in the
order written. -/
theorem C4_rows_ascending (regs : List (Int × String × Nat × Int)) (now : Int → Int) :
    (redrawPass now 0 (ProgressBar.init.registerAll regs).progressBars).2 = true ∧
    ((redrawPass now 0 (ProgressBar.init.registerAll regs).progressBars).1.map
      Row.id).Pairwise (fun a b => a < b) ∧
    (∀ i, i ∈ (redrawPass now 0 (ProgressBar.init.registerAll regs).progressBars).1.map Row.id
      ↔ i ∈ regs.map Prod.fst) ∧
    (redrawPass now 0 (ProgressBar.init.registerAll regs).progressBars).1.map Row.line
      = (List.range
          (redrawPass now 0 (ProgressBar.init.registerAll regs).progressBars).1.length).map
          (fun (k : Nat) => (k : Int) + 1) := by
  have hinit : ProgressBar.init.progressBars = [] := rfl
  obtain ⟨ho, hz, hk⟩ := ProgressBar.registerAll_spec regs ProgressBar.init
    (by rw [hinit]; simp [ProgressMap.Ordered, ProgressMap.keys]) (by rw [hinit]; simp)
  have hp : ∀ e ∈ (ProgressBar.init.registerAll regs).progressBars, percent e.2 ≤ 100 := by
    intro e he
    rw [percent_of_processed_zero e.2 (hz e he)]; norm_num
  obtain ⟨h1, h2, h3⟩ := redrawPass_of_le_hundred now _ 0 hp
  have hlen : (redrawPass now 0 (ProgressBar.init.registerAll regs).progressBars).1.length
      = (ProgressBar.init.registerAll regs).progressBars.length := by
    have := congrArg List.length h2
    simpa [ProgressMap.keys] using this
  refine ⟨h1, ?_, ?_, ?_⟩
  · rw [h2]; exact ho
  · intro i
    rw [h2, hk i, hinit]
    simp [ProgressMap.keys]
  · rw [h3, hlen]
    apply List.map_congr_left
    intro k _
    ring

/-- C4 at the registrations 3, 1, 2 in that order. -/
theorem C4_rows_ascending_witness :
    (redrawPass (fun _ => 0) 0 (ProgressBar.init.registerAll
      [(3, "c", 30, 0), (1, "a", 10, 0), (2, "b", 20, 0)]).progressBars).2 = true ∧
    ((redrawPass (fun _ => 0) 0 (ProgressBar.init.registerAll
      [(3, "c", 30, 0), (1, "a", 10, 0), (2, "b", 20, 0)]).progressBars).1.map
        Row.id).Pairwise (fun a b => a < b) :=
  ⟨(C4_rows_ascending [(3, "c", 30, 0), (1, "a", 10, 0), (2, "b", 20, 0)] (fun _ => 0)).1,
   (C4_rows_ascending [(3, "c", 30, 0), (1, "a", 10, 0), (2, "b", 20, 0)] (fun _ => 0)).2.1⟩

/-- C4 for the registrations 3, 1, 2 in that order: the rows written are those of the
ids 1, 2, 3, at the terminal rows 1, 2, 3. -/
theorem C4_rows_ascending_example :
    (redrawPass (fun _ => 0) 0 (ProgressBar.init.registerAll
      [(3, "c", 30, 0), (1, "a", 10, 0), (2, "b", 20, 0)]).progressBars).1.map
        (fun r => (r.line, r.id, r.name)) = [(1, 1, "a"), (2, 2, "b"), (3, 3, "c")] := by
  have h := redrawPass_of_le_hundred (fun _ => 0)
    [(1, ⟨0, 10, "a", 0, false⟩), (2, ⟨0, 20, "b", 0, false⟩), (3, ⟨0, 30, "c", 0, false⟩)] 0
    (by
      intro e he
      simp only [List.mem_cons, List.mem_singleton, List.not_mem_nil, or_false] at he
      rcases he with rfl | rfl | rfl <;>
        (rw [percent_of_processed_zero _ rfl]; norm_num))
  have hreg : (ProgressBar.init.registerAll
      [(3, "c", 30, 0), (1, "a", 10, 0), (2, "b", 20, 0)]).progressBars
      = [(1, ⟨0, 10, "a", 0, false⟩), (2, ⟨0, 20, "b", 0, false⟩), (3, ⟨0, 30, "c", 0, false⟩)] := by
    decide
  rw [hreg]
  simp only [redrawPass, renderRow_of_le_hundred _ _ _ _
    (show percent ⟨0, 10, "a", 0, false⟩ ≤ 100 by rw [percent_of_processed_zero _ rfl]; norm_num),
    renderRow_of_le_hundred _ _ _ _
    (show percent ⟨0, 20, "b", 0, false⟩ ≤ 100 by rw [percent_of_processed_zero _ rfl]; norm_num),
    renderRow_of_le_hundred _ _ _ _
    (show percent ⟨0, 30, "c", 0, false⟩ ≤ 100 by rw [percent_of_processed_zero _ rfl]; norm_num)]
  simp

/-! ## Percentage and gauge -/

/-- C5 as stated fails: for `processed = 58`, `total = 100` the computed percentage is
`8162774324609023 / 2 ^ 47` (57.99999999999999...), not `58 / 100 * 100`. -/
theorem C5_counterexample :
    (0 : ℕ) < (⟨58, 100, "", 0, false⟩ : ProgressData).total ∧
    percent ⟨58, 100, "", 0, false⟩ = 8162774324609023 / 2 ^ 47 ∧
    percent ⟨58, 100, "", 0, false⟩ ≠ (58 : ℚ) / 100 * 100 := by
  have h := percent_58_100 "" 0 false
  refine ⟨by decide, ?_, ?_⟩
  · rw [h]; norm_num
  · rw [h]; norm_num

/-- C5, amended: the percentage is `0` whenever `total = 0`; whenever `total > 0` it is
the `double` result of `(double)processed / total * 100`, each conversion, the quotient and
the product rounded to nearest, and for a `size_t` total it differs from
`processed / total * 100` by at most the fraction `2 ^ (-50)` of that value; for
`total = 200`, `processed = 100` it is exactly `50`. -/
theorem C5_percent (d : ProgressData) :
    (d.total = 0 → percent d = 0) ∧
    (0 < d.total → percent d
      = roundDouble (roundDouble (roundDouble d.processed / roundDouble d.total) * 100)) ∧
    (0 < d.total → d.total < 2 ^ 64 →
      |percent d - (d.processed : ℚ) / d.total * 100|
        ≤ (d.processed : ℚ) / d.total * 100 / 2 ^ 50) ∧
    (∀ (name : String) (start : Int) (fin : Bool),
      percent ⟨100, 200, name, start, fin⟩ = 50) := by
  refine ⟨?_, ?_, ?_, ?_⟩
  · intro h
    unfold percent
    rw [if_neg (by omega)]
  · intro h
    unfold percent fmul fdiv toDouble
    rw [if_pos h]
  · intro h0 h64
    exact percent_accuracy d h64 h0
  · intro name start fin
    exact percent_100_200 name start fin

/-- C5 at `total = 0`, `processed = 5`, and at `total = 100`, `processed = 58`. -/
theorem C5_percent_witness :
    percent ⟨5, 0, "", 0, false⟩ = 0 ∧
    |percent ⟨58, 100, "", 0, false⟩ - ((58 : ℕ) : ℚ) / ((100 : ℕ) : ℚ) * 100|
      ≤ ((58 : ℕ) : ℚ) / ((100 : ℕ) : ℚ) * 100 / 2 ^ 50 :=
  ⟨(C5_percent ⟨5, 0, "", 0, false⟩).1 rfl,
   (C5_percent ⟨58, 100, "", 0, false⟩).2.2.1 (by decide) (by decide)⟩

/-- C6: a record with `total = 0` or `processed ≤ total` has a percentage in `[0, 100]`;
and for every record whose percentage lies in `[0, 100]` the loop body completes and its
gauge is `floor(percent / 2)` filled glyphs followed by `50 - floor(percent / 2)` empty
glyphs, with `floor(percent / 2) ≤ 50`, 50 glyphs in all. -/
theorem C6_gauge (line id : Int) (d : ProgressData) (now : Int) :
    ((d.total = 0 ∨ d.processed ≤ d.total) → 0 ≤ percent d ∧ percent d ≤ 100) ∧
    ((0 ≤ percent d ∧ percent d ≤ 100) →
      ∃ row, renderRow line id d now = some row ∧
        row.filled = List.replicate ⌊percent d / 2⌋.toNat filledGlyph ∧
        row.empty = List.replicate (50 - ⌊percent d / 2⌋.toNat) emptyGlyph ∧
        ⌊percent d / 2⌋.toNat ≤ 50 ∧
        row.filled.length + row.empty.length = 50) := by
  constructor
  · intro h
    refine ⟨percent_nonneg d, ?_⟩
    rcases h with h0 | hle
    · unfold percent; rw [if_neg (by omega)]; norm_num
    · exact percent_le_hundred d hle
  · intro h
    have hle : ⌊percent d / 2⌋.toNat ≤ 50 := by
      have : ⌊percent d / 2⌋ < 51 := by
        rw [Int.floor_lt]; push_cast; linarith [h.2]
      omega
    refine ⟨_, renderRow_of_le_hundred line id d now h.2, rfl, rfl, hle, ?_⟩
    simp only [List.length_replicate]
    omega

/-- C6 at percentages 50, 0 and 100: the gauges have 25 + 25, 0 + 50 and 50 + 0 glyphs. -/
theorem C6_gauge_witness :
    (percent ⟨100, 200, "a", 0, false⟩ = 50 ∧
      (renderRow 1 7 ⟨100, 200, "a", 0, false⟩ 0).map Row.filled
        = some (List.replicate 25 filledGlyph) ∧
      (renderRow 1 7 ⟨100, 200, "a", 0, false⟩ 0).map Row.empty
        = some (List.replicate 25 emptyGlyph)) ∧
    (percent ⟨0, 200, "a", 0, false⟩ = 0 ∧
      (renderRow 1 7 ⟨0, 200, "a", 0, false⟩ 0).map Row.filled
        = some (List.replicate 0 filledGlyph) ∧
      (renderRow 1 7 ⟨0, 200, "a", 0, false⟩ 0).map Row.empty
        = some (List.replicate 50 emptyGlyph)) ∧
    (percent ⟨200, 200, "a", 0, false⟩ = 100 ∧
      (renderRow 1 7 ⟨200, 200, "a", 0, false⟩ 0).map Row.filled
        = some (List.replicate 50 filledGlyph) ∧
      (renderRow 1 7 ⟨200, 200, "a", 0, false⟩ 0).map Row.empty
        = some (List.replicate 0 emptyGlyph)) := by
  have p50 := percent_100_200 "a" 0 false
  have p0 : percent ⟨0, 200, "a", 0, false⟩ = 0 := percent_of_processed_zero _ rfl
  have p100 := percent_self 200 (by norm_num) "a" 0 false
  have f25 : ⌊(50 : ℚ) / 2⌋.toNat = 25 := by
    rw [show (50 : ℚ) / 2 = ((25 : ℤ) : ℚ) by norm_num, Int.floor_intCast]; rfl
  have f0 : ⌊(0 : ℚ) / 2⌋.toNat = 0 := by simp
  have f50 : ⌊(100 : ℚ) / 2⌋.toNat = 50 := by
    rw [show (100 : ℚ) / 2 = ((50 : ℤ) : ℚ) by norm_num, Int.floor_intCast]; rfl
  refine ⟨⟨p50, ?_⟩, ⟨p0, ?_⟩, ⟨p100, ?_⟩⟩
  · obtain ⟨row, h1, h2, h3, _, _⟩ := (C6_gauge 1 7 ⟨100, 200, "a", 0, false⟩ 0).2
      (by rw [p50]; norm_num)
    rw [p50, f25] at h2 h3
    rw [h1, Option.map_some', Option.map_some', h2, h3]
    exact ⟨rfl, rfl⟩
  · obtain ⟨row, h1, h2, h3, _, _⟩ := (C6_gauge 1 7 ⟨0, 200, "a", 0, false⟩ 0).2
      (by rw [p0]; norm_num)
    rw [p0, f0] at h2 h3
    rw [h1, Option.map_some', Option.map_some', h2, h3]
    exact ⟨rfl, rfl⟩
  · obtain ⟨row, h1, h2, h3, _, _⟩ := (C6_gauge 1 7 ⟨200, 200, "a", 0, false⟩ 0).2
      (by rw [p100]; norm_num)
    rw [p100, f50] at h2 h3
    rw [h1, Option.map_some', Option.map_some', h2, h3]
    exact ⟨rfl, rfl⟩

/-! ## Elapsed time -/

/-- C7: for a non-negative duration of `d` ticks, with `s` the whole seconds in `d`,
`formatTimeDuration` returns the decimal numeral of `s / 60`, then `m `, then the decimal
numeral of `s % 60`, then `s`; the seconds part is below 60 and
`60 * (s / 60) + s % 60 = s`, so minutes are not rolled over into hours. -/
theorem C7_formatTimeDuration (d : Int) (hd : 0 ≤ d) :
    formatTimeDuration d
      = toString (d.toNat / 1000000000 / 60) ++ "m "
          ++ toString (d.toNat / 1000000000 % 60) ++ "s" ∧
    d.toNat / 1000000000 % 60 < 60 ∧
    60 * (d.toNat / 1000000000 / 60) + d.toNat / 1000000000 % 60 = d.toNat / 1000000000 := by
  obtain ⟨n, rfl⟩ := Int.eq_ofNat_of_zero_le hd
  refine ⟨?_, Nat.mod_lt _ (by norm_num), Nat.div_add_mod _ _⟩
  unfold formatTimeDuration ticksPerSecond
  simp only [Int.toNat_ofNat]
  have h1 : Int.tdiv (n : Int) 1000000000 = ((n / 1000000000 : Nat) : Int) := by
    rw [Int.tdiv_eq_ediv (by positivity) (by norm_num)]; norm_cast
  have h2 : Int.tdiv ((n / 1000000000 : Nat) : Int) 60 = ((n / 1000000000 / 60 : Nat) : Int) := by
    rw [Int.tdiv_eq_ediv (by positivity) (by norm_num)]; norm_cast
  have h3 : Int.tmod ((n / 1000000000 : Nat) : Int) 60 = ((n / 1000000000 % 60 : Nat) : Int) := by
    rw [Int.tmod_eq_emod (by positivity) (by norm_num)]; norm_cast
  rw [h1, h2, h3]
  rfl

/-- C7 at 125 seconds and at 59.999999999 seconds. -/
theorem C7_formatTimeDuration_witness :
    formatTimeDuration 125000000000 = "2m 5s" ∧ formatTimeDuration 59999999999 = "0m 59s" :=
  ⟨(C7_formatTimeDuration 125000000000 (by decide)).1.trans (by decide),
   (C7_formatTimeDuration 59999999999 (by decide)).1.trans (by decide)⟩

/-! ## Lifecycle -/

/-- C8: `stop()` is idempotent: a second `stop()` right after the first leaves the state
the first one left, lifecycle fields and the count of executed `join()` calls included,
so the second call joins nothing; and on an object whose `threadStarted` is not set
`stop()` changes nothing. `stop()` calls `join()` only on a joinable thread. -/
theorem C8_stop_idempotent (s : ProgressBar) :
    s.stop.stop = s.stop ∧
    s.stop.stop.joins = s.stop.joins ∧
    (s.stop.threadStarted = s.threadStarted) ∧
    (s.threadStarted = false → s.stop = s) ∧
    (s.stop.joins ≠ s.joins → s.displayThread.joinable = true) := by
  obtain ⟨m, sf, ts, ⟨j, r⟩, out, jn, term⟩ := s
  cases ts <;> cases j <;> simp [ProgressBar.stop]

/-- C8 at a new registry, and at one whose display thread runs. -/
theorem C8_stop_idempotent_witness :
    ProgressBar.init.stop = ProgressBar.init ∧
    ((ProgressBar.init.addProgressBar 1 "a" 10 0).stop.stop
      = (ProgressBar.init.addProgressBar 1 "a" 10 0).stop) ∧
    (ProgressBar.init.addProgressBar 1 "a" 10 0).stop.joins = 1 :=
  ⟨(C8_stop_idempotent ProgressBar.init).2.2.2.1 (by decide),
   (C8_stop_idempotent (ProgressBar.init.addProgressBar 1 "a" 10 0)).1,
   by decide⟩

/-- C9 as stated fails: a `stop()` on a new registry returns without effect, and the
registration after it starts the display thread, whose next loop iteration writes a row. -/
theorem C9_counterexample :
    ((ProgressBar.init.runEvents [Event.stop]).runEvents
      [Event.addProgressBar 1 "a" 10 0]).displayThread.running = true ∧
    (ProgressBar.init.runEvents [Event.stop]).output = [] ∧
    ((ProgressBar.init.runEvents [Event.stop]).runEvents
      [Event.addProgressBar 1 "a" 10 0, Event.redraw (fun _ => 0)]).output
      = [⟨1, 1, "a", [], List.replicate 50 emptyGlyph, 0, "0m 0s"⟩] := by
  refine ⟨by decide, by decide, ?_⟩
  have h1 : (ProgressBar.init.runEvents [Event.stop]).runEvents
      [Event.addProgressBar 1 "a" 10 0]
      = ⟨[(1, ⟨0, 10, "a", 0, false⟩)], false, true, ⟨true, true⟩, [], 0, false⟩ := by decide
  have h2 : (ProgressBar.init.runEvents [Event.stop]).runEvents
      [Event.addProgressBar 1 "a" 10 0, Event.redraw (fun _ => 0)]
      = (((ProgressBar.init.runEvents [Event.stop]).runEvents
          [Event.addProgressBar 1 "a" 10 0]).step (Event.redraw (fun _ => 0))) := rfl
  rw [h2, h1]
  simp only [ProgressBar.step, ProgressBar.runIteration, redrawPass, renderRow_zero]
  simp
  decide

/-- C9, amended: in every sequence of events in which an `addProgressBar` call precedes a
`stop()` call, once that `stop()` has returned the display thread is not running, and
whatever follows neither starts it again nor adds to the output. -/
theorem C9_no_output_after_stop (pre post : List Event)
    (h : ∃ id name total now, Event.addProgressBar id name total now ∈ pre) :
    (ProgressBar.init.runEvents (pre ++ [Event.stop])).displayThread.running = false ∧
    ((ProgressBar.init.runEvents (pre ++ [Event.stop])).runEvents post).displayThread.running
      = false ∧
    ((ProgressBar.init.runEvents (pre ++ [Event.stop])).runEvents post).output
      = (ProgressBar.init.runEvents (pre ++ [Event.stop])).output := by
  have hc := ProgressBar.consistent_runEvents pre _ ProgressBar.consistent_init
  have hts := ProgressBar.threadStarted_of_mem pre _ ProgressBar.consistent_init h
  have hq : ProgressBar.Quiet (ProgressBar.init.runEvents (pre ++ [Event.stop])) := by
    have : ProgressBar.init.runEvents (pre ++ [Event.stop])
        = (ProgressBar.init.runEvents pre).step Event.stop := by
      simp [ProgressBar.runEvents, List.foldl_append]
    rw [this]
    exact ProgressBar.quiet_step_stop _ hc hts
  have hpost := ProgressBar.quiet_runEvents post _ hq
  exact ⟨hq.2, hpost.1.2, hpost.2⟩

/-- C9 at one registration, a redraw, `stop()`, then a registration and a redraw. -/
theorem C9_no_output_after_stop_witness :
    ((ProgressBar.init.runEvents ([Event.addProgressBar 1 "a" 10 0, Event.redraw (fun _ => 0)]
        ++ [Event.stop])).runEvents
      [Event.addProgressBar 2 "b" 10 0, Event.redraw (fun _ => 0)]).displayThread.running
      = false ∧
    ((ProgressBar.init.runEvents ([Event.addProgressBar 1 "a" 10 0, Event.redraw (fun _ => 0)]
        ++ [Event.stop])).runEvents
      [Event.addProgressBar 2 "b" 10 0, Event.redraw (fun _ => 0)]).output
      = (ProgressBar.init.runEvents ([Event.addProgressBar 1 "a" 10 0,
          Event.redraw (fun _ => 0)] ++ [Event.stop])).output :=
  (C9_no_output_after_stop [Event.addProgressBar 1 "a" 10 0, Event.redraw (fun _ => 0)]
    [Event.addProgressBar 2 "b" 10 0, Event.redraw (fun _ => 0)]
    ⟨1, "a", 10, 0, by simp⟩).2

/-! ## Percentages above 100 -/

/-- C10 at `total = 100`, `processed = 200`: the percentage is 200, `completed` is 100,
the `size_t` difference `barWidth - completed` wraps to `2 ^ 64 - 50`, the second
`std::string` constructor throws, the loop body does not complete, and the exception
leaving `run()` ends the process. -/
theorem C10_wraparound_at_200_percent :
    percent ⟨200, 100, "a", 0, false⟩ = 200 ∧
    completed ⟨200, 100, "a", 0, false⟩ = some 100 ∧
    subSizeT barWidth 100 = 2 ^ 64 - 50 ∧
    stdString (subSizeT barWidth 100) emptyGlyph = none ∧
    renderRow 1 7 ⟨200, 100, "a", 0, false⟩ 0 = none ∧
    (ProgressBar.init.runEvents [Event.addProgressBar 7 "a" 100 0,
      Event.updateProgress 7 200, Event.redraw (fun _ => 0)]).terminated = true := by
  have p := percent_200_100 "a" 0 false
  have hc : completed ⟨200, 100, "a", 0, false⟩ = some 100 := by
    rw [completed_eq _ (by rw [p]; norm_num), p,
      show (200 : ℚ) / 2 = ((100 : ℤ) : ℚ) by norm_num, Int.floor_intCast]
    rfl
  have hr : ∀ line id now, renderRow line id ⟨200, 100, "a", 0, false⟩ now = none :=
    fun line id now => renderRow_none_of_ge line id _ now (by rw [p]; norm_num)
  refine ⟨p, hc, by decide, by decide, hr 1 7 0, ?_⟩
  have h1 : ProgressBar.init.runEvents [Event.addProgressBar 7 "a" 100 0,
      Event.updateProgress 7 200]
      = ⟨[(7, ⟨200, 100, "a", 0, false⟩)], false, true, ⟨true, true⟩, [], 0, false⟩ := by
    decide
  have h2 : ProgressBar.init.runEvents [Event.addProgressBar 7 "a" 100 0,
      Event.updateProgress 7 200, Event.redraw (fun _ => 0)]
      = (ProgressBar.init.runEvents [Event.addProgressBar 7 "a" 100 0,
          Event.updateProgress 7 200]).step (Event.redraw (fun _ => 0)) := rfl
  rw [h2, h1]
  simp [ProgressBar.step, ProgressBar.runIteration, redrawPass, hr]
